import Mathlib

/-
Verification development for the CloudShell sandbox teardown script
(`sandbox_scripts/environment/teardown/teardown_script.py`).

The development has two parts.

Part A is a sequential model of the phase structure of
`EnvironmentTeardown.execute` and of the error handling around each remote
call.  Every remote call that the source wraps (or fails to wrap) in a
`try/except` is given an explicit outcome parameter: `none` means the call
succeeds, `some (Failure.api code msg)` models a raised `CloudShellAPIError`
carrying `code` and `msg`, and `some (Failure.exn msg)` models any other
raised exception.  Observable behaviour is the ordered list of reservation
output messages, the ordered list of log entries, the argument lists of the
mutating API calls, and whether an exception escapes the modelled code.

Part B is a small-step interleaving semantics of the worker pool in
`_power_off_and_delete_all_vm_resources` /`_power_off_or_delete_deployed_app`:
each worker is an automaton whose program counter tracks the source line it
is about to execute, the two shared status flags and the `threading.Lock`
are global state, and a scheduler picks which worker steps next.  The
message-coalescing invariants are proved for every interleaving.
-/

/-- A reservation-output message written by `WriteMessageToReservationOutput`.
Constructors correspond one-to-one to the message strings of the source; the
exact text is recovered by `OutMsg.text`. -/
inductive OutMsg where
  | beginningTeardown
  | disconnectingAllApps
  | errorDisconnectingApps (err : String)
  | removeError (msg : String)
  | cleaningUpConnectivity
  | teardownFinished
  | poweredOffAndDeleted
  | beingDeleted
  | poweringOff
  deriving DecidableEq, Repr

/-- The exact message string of the source for each `OutMsg` constructor. -/
def OutMsg.text : OutMsg → String
  | .beginningTeardown => "Beginning reservation teardown"
  | .disconnectingAllApps => "Disconnecting all apps..."
  | .errorDisconnectingApps err => "Error disconnecting apps. Error: " ++ err
  | .removeError msg => msg
  | .cleaningUpConnectivity => "Cleaning-up connectivity"
  | .teardownFinished => "Reservation teardown finished successfully"
  | .poweredOffAndDeleted => "Apps are being powered off and deleted..."
  | .beingDeleted => "Apps are being deleted..."
  | .poweringOff => "Apps are powering off..."

/-- A structured log entry emitted through `self.logger`.  Constructors
correspond to the `logger.info` / `logger.error` call sites of the source. -/
inductive LogEntry where
  | noRoutes (rid : String)
  | execDisconnect (rid : String)
  | errorDisconnecting (rid err : String)
  | deleteApp (name rid : String)
  | powerOffApp (name rid : String)
  | autoPowerOffDisabled (name rid : String)
  | errorPowerOffDelete (name rid err : String)
  | removeErrorLog (err : String)
  | cleanupLog (rid : String)
  | completedLog (rid : String)
  deriving DecidableEq, Repr

/-- Log level of a `LogEntry`: `true` for the `logger.error` call sites of
the source, `false` for the `logger.info` ones. -/
def LogEntry.isError : LogEntry → Bool
  | .errorDisconnecting _ _ => true
  | .errorPowerOffDelete _ _ _ => true
  | .removeErrorLog _ => true
  | _ => false

/-- Outcome of a remote call that raises: a `CloudShellAPIError` with a
`code` attribute of type `α` and a `message` attribute, or any other
exception.  The code type is a parameter because the source compares the
code of the disconnect call against the string literal "123" and the code
of the bulk-remove call against the integer literal 153. -/
inductive Failure (α : Type) where
  | api (code : α) (message : String)
  | exn (message : String)
  deriving DecidableEq, Repr

/-- A connector of the reservation description (`ReservationDescription.Connectors`).
`Target` and `Source` are endpoint names; the empty string models a falsy
(absent) endpoint, matching Python truthiness on strings. -/
structure Connector where
  State : String
  Target : String
  Source : String
  deriving DecidableEq, Repr

/-- A custom parameter record, as returned by the collaborator
`get_vm_custom_param`; only its `Value` attribute is read. -/
structure CustomParam where
  Value : String
  deriving DecidableEq, Repr

/-- The per-resource data read by `_power_off_or_delete_deployed_app`:
the resource name, the truthiness of `resource_details.VmDetails`, and the
results of `get_vm_custom_param(resource_info, "auto_delete")` and
`get_vm_custom_param(resource_info, "auto_power_off")` (the collaborator
returns the parameter record or a falsy value, modelled as `Option`). -/
structure ResourceConf where
  Name : String
  VmDetailsPresent : Bool
  autoDelete : Option CustomParam
  autoPowerOff : Option CustomParam
  deriving DecidableEq, Repr

/-- Lines 127-130 of the source: `delete` defaults to "true" and is replaced
by the value of the `auto_delete` custom parameter when that is present. -/
def deleteVal (r : ResourceConf) : String :=
  match r.autoDelete with
  | some p => p.Value
  | none => "true"

/-- ASCII lowering of one character: the effect of Python `str.lower` on
the parameter values compared here (they are ASCII). -/
def lowerChar (c : Char) : Char :=
  if 'A' ≤ c ∧ c ≤ 'Z' then Char.ofNat (c.toNat + 32) else c

/-- ASCII lowering of a string, modelling Python `str.lower`. -/
def strLower (s : String) : String :=
  ⟨s.data.map lowerChar⟩

/-- Line 132 of the source: `delete.lower() == "true"`. -/
def deleteFlag (r : ResourceConf) : Bool :=
  strLower (deleteVal r) == "true"

/-- Lines 153-156 of the source: `power_off` defaults to "true" and is
replaced by the value of the `auto_power_off` custom parameter. -/
def powerVal (r : ResourceConf) : String :=
  match r.autoPowerOff with
  | some p => p.Value
  | none => "true"

/-- Line 158 of the source: `power_off.lower() == "true"`. -/
def powerFlag (r : ResourceConf) : Bool :=
  strLower (powerVal r) == "true"

/-- Lines 40-46 of the source: collect `Target` then `Source` of every
connector whose `State` is Connected or PartiallyConnected and whose
`Target` and `Source` are truthy, in connector order. -/
def routeEndpoints : List Connector → List String
  | [] => []
  | e :: rest =>
    if (e.State = "Connected" ∨ e.State = "PartiallyConnected")
        ∧ e.Target ≠ "" ∧ e.Source ≠ "" then
      e.Target :: e.Source :: routeEndpoints rest
    else
      routeEndpoints rest

/-- Observable output of `_disconnect_all_routes_in_reservation`: log
entries, reservation-output messages, and the endpoint lists passed to
`DisconnectRoutesInReservation` (one entry per issued call, whether or not
the call failed). -/
structure DisOut where
  logs : List LogEntry
  msgs : List OutMsg
  calls : List (List String)
  deriving DecidableEq, Repr

/-- Rendering of `str(cerr)` for a structured API error, used in the error
log entries of the source; the exact Python rendering of the SDK object is
abstracted as code and message separated by a colon. -/
def apiErrStr (code message : String) : String :=
  code ++ ": " ++ message

/-- Model of `_disconnect_all_routes_in_reservation` (lines 39-69).
`outcome` is the behaviour of the `DisconnectRoutesInReservation` call.
The function never lets an exception escape: the structured handler
swallows code "123" silently and logs/reports any other code, and the
generic handler logs/reports any unstructured exception. -/
def disconnect_all_routes_in_reservation (rid : String) (connectors : List Connector)
    (outcome : Option (Failure String)) : DisOut :=
  let endpoints := routeEndpoints connectors
  if endpoints = [] then
    { logs := [.noRoutes rid], msgs := [], calls := [] }
  else
    match outcome with
    | none =>
      { logs := [.execDisconnect rid], msgs := [.disconnectingAllApps], calls := [endpoints] }
    | some (.api code m) =>
      if code = "123" then
        { logs := [.execDisconnect rid], msgs := [.disconnectingAllApps], calls := [endpoints] }
      else
        { logs := [.execDisconnect rid, .errorDisconnecting rid (apiErrStr code m)],
          msgs := [.disconnectingAllApps, .errorDisconnectingApps m],
          calls := [endpoints] }
    | some (.exn m) =>
      { logs := [.execDisconnect rid, .errorDisconnecting rid m],
        msgs := [.disconnectingAllApps, .errorDisconnectingApps m],
        calls := [endpoints] }

/-- The two shared status flags of `message_status` (lines 85-88). -/
structure MsgStatus where
  power_off : Bool
  delete : Bool
  deriving DecidableEq, Repr

/-- Behaviour of the remote calls made inside one execution of
`_power_off_or_delete_deployed_app`: the outcome of the
`WriteMessageToReservationOutput` call it may issue and the outcome of the
`ExecuteResourceConnectedCommand` power-off call.  `some e` means the call
raises an exception rendered as `e`. -/
structure WorkerEnv where
  writeMsgErr : Option String
  powerOffErr : Option String
  deriving DecidableEq, Repr

/-- Side effects accumulated by one execution of
`_power_off_or_delete_deployed_app`: the status flags after it, its log
entries, its reservation-output messages, and the resource names passed to
`ExecuteResourceConnectedCommand` for power-off. -/
structure WEff where
  status : MsgStatus
  logs : List LogEntry
  msgs : List OutMsg
  cmds : List String
  deriving DecidableEq, Repr

/-- The body of the `try` block of `_power_off_or_delete_deployed_app`
(lines 127-173), sequential view (the lock degenerates, so the outer and
inner flag checks coincide).  Returns `.ok (effects, result)` on normal
return or `.error (effects, e)` when a modelled call raises `e`; the
effects record carries everything performed before the raise, in
particular flag updates that happened before a failing message write. -/
def worker_body (rid : String) (r : ResourceConf) (env : WorkerEnv)
    (st : MsgStatus) : Except (WEff × String) (WEff × Option String) :=
  if deleteFlag r then
    let logs := [LogEntry.deleteApp r.Name rid]
    if st.delete then
      .ok (⟨st, logs, [], []⟩, some r.Name)
    else
      if st.power_off then
        let st₁ : MsgStatus := ⟨st.power_off, true⟩
        match env.writeMsgErr with
        | some e => .error (⟨st₁, logs, [], []⟩, e)
        | none => .ok (⟨st₁, logs, [.beingDeleted], []⟩, some r.Name)
      else
        let st₁ : MsgStatus := ⟨true, true⟩
        match env.writeMsgErr with
        | some e => .error (⟨st₁, logs, [], []⟩, e)
        | none => .ok (⟨st₁, logs, [.poweredOffAndDeleted], []⟩, some r.Name)
  else
    if powerFlag r then
      let logs := [LogEntry.powerOffApp r.Name rid]
      if st.power_off then
        match env.powerOffErr with
        | some e => .error (⟨st, logs, [], []⟩, e)
        | none => .ok (⟨st, logs, [], [r.Name]⟩, none)
      else
        let st₁ : MsgStatus := ⟨true, st.delete⟩
        match env.writeMsgErr with
        | some e => .error (⟨st₁, logs, [], []⟩, e)
        | none =>
          match env.powerOffErr with
          | some e => .error (⟨st₁, logs, [.poweringOff], []⟩, e)
          | none => .ok (⟨st₁, logs, [.poweringOff], [r.Name]⟩, none)
    else
      .ok (⟨st, [LogEntry.autoPowerOffDisabled r.Name rid], [], []⟩, none)

/-- Model of `_power_off_or_delete_deployed_app` (lines 117-177): the body
wrapped in the `try/except` of lines 126 and 174-177.  Any exception from
the body is caught, an error entry naming the resource and the error is
logged, and `None` is returned; no exception escapes. -/
def power_off_or_delete_deployed_app (rid : String) (r : ResourceConf)
    (env : WorkerEnv) (st : MsgStatus) : WEff × Option String :=
  match worker_body rid r env st with
  | .ok out => out
  | .error (eff, e) =>
    ({ eff with logs := eff.logs ++ [.errorPowerOffDelete r.Name rid e] }, none)

/-- One resource as seen by the submission loop of
`_power_off_and_delete_all_vm_resources` (lines 90-95): its data, the
outcome of the `GetResourceDetails` call for it (which is not inside any
`try`), and the behaviour of the calls made by its worker. -/
structure ResourceSetup where
  conf : ResourceConf
  detailsErr : Option String
  wenv : WorkerEnv
  deriving DecidableEq, Repr

/-- Accumulated output of the worker phase: final status flags, log
entries, messages, power-off command targets, per-worker results in
submission order, and an exception escaping the phase (from
`GetResourceDetails`), if any. -/
structure WorkersOut where
  status : MsgStatus
  logs : List LogEntry
  msgs : List OutMsg
  cmds : List String
  results : List (Option String)
  escaped : Option String
  deriving DecidableEq, Repr

/-- Sequential model of the submission loop plus worker execution (lines
90-104), fixing the interleaving in which each worker runs to completion in
submission order; the concurrent message semantics is Part B.  A raising
`GetResourceDetails` (line 91) is outside every `try` and aborts the loop;
resources whose `VmDetails` is falsy are skipped. -/
def runWorkers (rid : String) : List ResourceSetup → MsgStatus → WorkersOut
  | [], st => ⟨st, [], [], [], [], none⟩
  | r :: rest, st =>
    match r.detailsErr with
    | some e => ⟨st, [], [], [], [], some e⟩
    | none =>
      if r.conf.VmDetailsPresent then
        let out := power_off_or_delete_deployed_app rid r.conf r.wenv st
        let w := runWorkers rid rest out.1.status
        ⟨w.status, out.1.logs ++ w.logs, out.1.msgs ++ w.msgs,
          out.1.cmds ++ w.cmds, out.2 :: w.results, w.escaped⟩
      else runWorkers rid rest st

/-- Observable output of `_power_off_and_delete_all_vm_resources`:
logs, messages, the argument lists passed to
`RemoveResourcesFromReservation` (one entry per issued call), power-off
command targets, and an escaping exception, if any. -/
structure AOut where
  logs : List LogEntry
  msgs : List OutMsg
  removeCalls : List (List String)
  cmds : List String
  escaped : Option String
  deriving DecidableEq, Repr

/-- Model of `_power_off_and_delete_all_vm_resources` (lines 71-116).
`removeOutcome` is the behaviour of the bulk
`RemoveResourcesFromReservation` call; it is consulted only when the
collected deletion-candidate list is nonempty (line 107).  Its
`except CloudShellAPIError` handler (lines 110-115) logs and reports the
error when the code equals 153 and silently swallows every other
structured code; an unstructured exception escapes. -/
def power_off_and_delete_all_vm_resources (rid : String)
    (rs : List ResourceSetup) (removeOutcome : Option (Failure Nat)) : AOut :=
  let w := runWorkers rid rs ⟨false, false⟩
  match w.escaped with
  | some e => ⟨w.logs, w.msgs, [], w.cmds, some e⟩
  | none =>
    let cands := w.results.filterMap id
    if cands = [] then
      ⟨w.logs, w.msgs, [], w.cmds, none⟩
    else
      match removeOutcome with
      | none => ⟨w.logs, w.msgs, [cands], w.cmds, none⟩
      | some (.api c m) =>
        if c = 153 then
          ⟨w.logs ++ [.removeErrorLog m], w.msgs ++ [.removeError m],
            [cands], w.cmds, none⟩
        else
          ⟨w.logs, w.msgs, [cands], w.cmds, none⟩
      | some (.exn m) => ⟨w.logs, w.msgs, [cands], w.cmds, some m⟩

/-- The environment of one `execute()` run: the reservation data and the
behaviour of each fallible remote call. -/
structure ExecEnv where
  connectors : List Connector
  disconnectOutcome : Option (Failure String)
  resources : List ResourceSetup
  removeOutcome : Option (Failure Nat)
  cleanupErr : Option String
  deriving DecidableEq, Repr

/-- Observable output of `execute()`: logs, messages, the calls of each
kind, how many `CleanupSandboxConnectivity` calls were issued, and an
exception escaping `execute`, if any. -/
structure ExecOut where
  logs : List LogEntry
  msgs : List OutMsg
  disconnectCalls : List (List String)
  removeCalls : List (List String)
  cmds : List String
  cleanupCalls : Nat
  escaped : Option String
  deriving DecidableEq, Repr

/-- Model of `execute()` (lines 21-37) together with
`_cleanup_connectivity` (lines 179-188).  The phases run strictly in
order; `_cleanup_connectivity` logs and writes its message before the
`CleanupSandboxConnectivity` call and has no error handling, so a failure
there (or one escaping the resource phase) aborts the remaining steps,
including the final success announcement. -/
def executeModel (rid : String) (env : ExecEnv) : ExecOut :=
  let d := disconnect_all_routes_in_reservation rid env.connectors env.disconnectOutcome
  let a := power_off_and_delete_all_vm_resources rid env.resources env.removeOutcome
  match a.escaped with
  | some e =>
    ⟨d.logs ++ a.logs, OutMsg.beginningTeardown :: (d.msgs ++ a.msgs),
      d.calls, a.removeCalls, a.cmds, 0, some e⟩
  | none =>
    let logs₁ := d.logs ++ a.logs ++ [LogEntry.cleanupLog rid]
    let msgs₁ := OutMsg.beginningTeardown :: (d.msgs ++ a.msgs ++ [OutMsg.cleaningUpConnectivity])
    match env.cleanupErr with
    | some e => ⟨logs₁, msgs₁, d.calls, a.removeCalls, a.cmds, 1, some e⟩
    | none =>
      ⟨logs₁ ++ [LogEntry.completedLog rid], msgs₁ ++ [OutMsg.teardownFinished],
        d.calls, a.removeCalls, a.cmds, 1, none⟩

/-- Program counter of one worker thread executing
`_power_off_or_delete_deployed_app`, at the granularity of the source
statements that touch the shared state.  The `d` points belong to the
delete branch (lines 132-151), the `p` points to the power-off branch
(lines 152-169), and `nDone` is the finished no-op branch (lines 170-172).
`dCheck` and `pCheck` are the lock-free outer reads of lines 136 and 162;
`dAcquire`/`pAcquire` are the lock acquisitions of lines 137 and 163;
`dRecheck`/`pRecheck` are the reads under the lock of lines 138 and 164;
`dSetDelete` is the write of line 139; `dCheckPower` is the read of line
140; `dSetPower`/`pSetPower` are the writes of lines 141 and 165;
`dEmitBoth`, `dEmitDeleted` and `pEmit` are the message writes of lines
142, 145 and 166 performed while still holding the lock;
`dRelease`/`pRelease` leave the `with lock` block; `pCmd` is the power-off
command of line 169; `dDone` returns the resource name (line 151) and
`pDone`/`nDone` return `None` (line 173). -/
inductive PC where
  | dCheck
  | dAcquire
  | dRecheck
  | dSetDelete
  | dCheckPower
  | dSetPower
  | dEmitBoth
  | dEmitDeleted
  | dRelease
  | dDone
  | pCheck
  | pAcquire
  | pRecheck
  | pSetPower
  | pEmit
  | pRelease
  | pCmd
  | pDone
  | nDone
  deriving DecidableEq, Repr

/-- Which branch of `_power_off_or_delete_deployed_app` a program point
belongs to. -/
inductive Branch where
  | del
  | pow
  | noop
  deriving DecidableEq, Repr

/-- Branch of each program point. -/
def pcBranch : PC → Branch
  | .dCheck | .dAcquire | .dRecheck | .dSetDelete | .dCheckPower
  | .dSetPower | .dEmitBoth | .dEmitDeleted | .dRelease | .dDone => .del
  | .pCheck | .pAcquire | .pRecheck | .pSetPower | .pEmit
  | .pRelease | .pCmd | .pDone => .pow
  | .nDone => .noop

/-- Branch taken by a worker for a resource, per lines 132 and 158: the
delete branch when `auto_delete` resolves to true, else the power-off
branch when `auto_power_off` resolves to true, else the no-op branch. -/
def branchOf (r : ResourceConf) : Branch :=
  if deleteFlag r then .del else if powerFlag r then .pow else .noop

/-- Initial program point of the worker for a resource. -/
def initPC (r : ResourceConf) : PC :=
  if deleteFlag r then .dCheck else if powerFlag r then .pCheck else .nDone

/-- Program points at which the worker is inside the `with lock` block. -/
def inLock : PC → Bool
  | .dRecheck | .dSetDelete | .dCheckPower | .dSetPower | .dEmitBoth
  | .dEmitDeleted | .dRelease | .pRecheck | .pSetPower | .pEmit
  | .pRelease => true
  | _ => false

/-- Program points whose next step reads or writes a shared status flag. -/
def touchesFlags : PC → Bool
  | .dCheck | .dRecheck | .dSetDelete | .dCheckPower | .dSetPower
  | .pCheck | .pRecheck | .pSetPower => true
  | _ => false

/-- Program points at which the `delete` flag has been set by this worker
but its delete-class message has not yet been written. -/
def delPending : PC → Bool
  | .dCheckPower | .dSetPower | .dEmitBoth | .dEmitDeleted => true
  | _ => false

/-- Program points at which the `power_off` flag has been set by this
worker but its power-off-class message has not yet been written. -/
def powPending : PC → Bool
  | .dEmitBoth | .pEmit => true
  | _ => false

/-- Program points reachable only with the shared `delete` flag set. -/
def delKnown : PC → Bool
  | .dCheckPower | .dSetPower | .dEmitBoth | .dEmitDeleted
  | .dRelease | .dDone => true
  | _ => false

/-- Program points reachable only with the shared `power_off` flag set. -/
def powKnown : PC → Bool
  | .dEmitBoth | .dEmitDeleted | .pEmit | .pRelease | .pCmd | .pDone => true
  | _ => false

/-- Local state of one pool worker: the resource name it was given and its
program point. -/
structure WorkerState where
  name : String
  pc : PC
  deriving DecidableEq, Repr

/-- Global state of the worker pool of
`_power_off_and_delete_all_vm_resources`: the two shared flags of
`message_status`, the holder of the shared `threading.Lock` (by worker
index), the reservation-output messages written so far, the power-off
commands issued so far (worker index and resource name), and the worker
states. -/
structure PoolState where
  delete : Bool
  power_off : Bool
  holder : Option Nat
  msgs : List OutMsg
  cmds : List (Nat × String)
  ws : List WorkerState
  deriving DecidableEq, Repr

/-- Initial pool state for a list of resources: per lines 90-95, a worker
is created exactly for the resources whose `VmDetails` is truthy; both
flags start false and the lock is free. -/
def initState (confs : List ResourceConf) : PoolState :=
  { delete := false
    power_off := false
    holder := none
    msgs := []
    cmds := []
    ws := (confs.filter (fun r => r.VmDetailsPresent)).map
      (fun r => ⟨r.Name, initPC r⟩) }

/-- The transition of the worker named `name` at program point `pc`: the
effect of the source statement at that point.  Lock acquisition is enabled
only when the lock is free; terminal points have no step. -/
def stepOfWorker (s : PoolState) (i : Nat) (name : String) : PC → Option PoolState
  | .dCheck =>
    some { s with ws := s.ws.set i ⟨name, if s.delete then .dDone else .dAcquire⟩ }
  | .dAcquire =>
    if s.holder = none then
      some { s with holder := some i, ws := s.ws.set i ⟨name, .dRecheck⟩ }
    else none
  | .dRecheck =>
    some { s with ws := s.ws.set i ⟨name, if s.delete then .dRelease else .dSetDelete⟩ }
  | .dSetDelete =>
    some { s with delete := true, ws := s.ws.set i ⟨name, .dCheckPower⟩ }
  | .dCheckPower =>
    some { s with ws := s.ws.set i ⟨name, if s.power_off then .dEmitDeleted else .dSetPower⟩ }
  | .dSetPower =>
    some { s with power_off := true, ws := s.ws.set i ⟨name, .dEmitBoth⟩ }
  | .dEmitBoth =>
    some { s with msgs := s.msgs ++ [.poweredOffAndDeleted], ws := s.ws.set i ⟨name, .dRelease⟩ }
  | .dEmitDeleted =>
    some { s with msgs := s.msgs ++ [.beingDeleted], ws := s.ws.set i ⟨name, .dRelease⟩ }
  | .dRelease =>
    some { s with holder := none, ws := s.ws.set i ⟨name, .dDone⟩ }
  | .dDone => none
  | .pCheck =>
    some { s with ws := s.ws.set i ⟨name, if s.power_off then .pCmd else .pAcquire⟩ }
  | .pAcquire =>
    if s.holder = none then
      some { s with holder := some i, ws := s.ws.set i ⟨name, .pRecheck⟩ }
    else none
  | .pRecheck =>
    some { s with ws := s.ws.set i ⟨name, if s.power_off then .pRelease else .pSetPower⟩ }
  | .pSetPower =>
    some { s with power_off := true, ws := s.ws.set i ⟨name, .pEmit⟩ }
  | .pEmit =>
    some { s with msgs := s.msgs ++ [.poweringOff], ws := s.ws.set i ⟨name, .pRelease⟩ }
  | .pRelease =>
    some { s with holder := none, ws := s.ws.set i ⟨name, .pCmd⟩ }
  | .pCmd =>
    some { s with cmds := s.cmds ++ [(i, name)], ws := s.ws.set i ⟨name, .pDone⟩ }
  | .pDone => none
  | .nDone => none

/-- One step of worker `i`, when enabled. -/
def workerStep (s : PoolState) (i : Nat) : Option PoolState :=
  match s.ws.get? i with
  | none => none
  | some w => stepOfWorker s i w.name w.pc

/-- Reachability by any interleaving of worker steps. -/
inductive Reaches : PoolState → PoolState → Prop
  | refl (s : PoolState) : Reaches s s
  | step {s t u : PoolState} (i : Nat) :
      Reaches s t → workerStep t i = some u → Reaches s u

/-- Messages of the power-off class: the two announcements that are
written exactly when the shared `power_off` flag transitions. -/
def isPowClass : OutMsg → Bool
  | .poweredOffAndDeleted => true
  | .poweringOff => true
  | _ => false

/-- Messages of the deleted class: the two announcements that are written
exactly when the shared `delete` flag transitions. -/
def isDelClass : OutMsg → Bool
  | .poweredOffAndDeleted => true
  | .beingDeleted => true
  | _ => false

/-- Number of power-off-class messages in a message list. -/
def countPow (msgs : List OutMsg) : Nat := msgs.countP isPowClass

/-- Number of deleted-class messages in a message list. -/
def countDel (msgs : List OutMsg) : Nat := msgs.countP isDelClass

/-- A pool state in which every worker has returned. -/
def allDone (s : PoolState) : Prop :=
  ∀ w ∈ s.ws, w.pc = PC.dDone ∨ w.pc = PC.pDone ∨ w.pc = PC.nDone

/-- Worker results as collected by lines 100-104: a delete-branch worker
returns its resource name, every other worker returns `None`. -/
def finalResults (s : PoolState) : List (Option String) :=
  s.ws.map (fun w => if w.pc = PC.dDone then some w.name else none)

/-- The `resource_to_delete` list of lines 100-104 in a terminal state. -/
def resourceToDelete (s : PoolState) : List String :=
  (finalResults s).filterMap id

/-- The bulk `RemoveResourcesFromReservation` calls issued by lines
106-109: one call with the collected names when the list is nonempty,
no call otherwise. -/
def bulkRemoveCalls (s : PoolState) : List (List String) :=
  if resourceToDelete s = [] then [] else [resourceToDelete s]

/-- Number of workers whose program point satisfies `p`. -/
def pcCount (p : PC → Bool) (s : PoolState) : Nat :=
  s.ws.countP (fun w => p w.pc)

/-- The invariant of the pool semantics, holding in every state reachable
from `initState confs` where `confs` is the filtered worker list.  It ties
the shared flags to the messages already written and to the program points
of the workers, and it is what makes the double-checked locking of the
source correct: each flag is set under the lock, each message is written by
the worker that flipped the corresponding flag, and the lock serialises
these transitions. -/
structure PoolInv (confs : List ResourceConf) (s : PoolState) : Prop where
  len : s.ws.length = confs.length
  names : ∀ i r w, confs.get? i = some r → s.ws.get? i = some w →
    w.name = r.Name ∧ pcBranch w.pc = branchOf r
  mutex : ∀ i w, s.ws.get? i = some w → inLock w.pc = true → s.holder = some i
  tokDel : countDel s.msgs + pcCount delPending s = s.delete.toNat
  tokPow : countPow s.msgs + pcCount powPending s = s.power_off.toNat
  preDel : ∀ i w, s.ws.get? i = some w → w.pc = PC.dSetDelete → s.delete = false
  prePow : ∀ i w, s.ws.get? i = some w →
    (w.pc = PC.dSetPower ∨ w.pc = PC.pSetPower) → s.power_off = false
  delSet : ∀ i w, s.ws.get? i = some w → delKnown w.pc = true → s.delete = true
  powSet : ∀ i w, s.ws.get? i = some w → powKnown w.pc = true → s.power_off = true
  lockWitness : s.delete = true → s.power_off = false →
    ∃ i w, s.holder = some i ∧ s.ws.get? i = some w ∧
      (w.pc = PC.dCheckPower ∨ w.pc = PC.dSetPower)
  delBranch : s.delete = true →
    ∃ i w, s.ws.get? i = some w ∧ pcBranch w.pc = Branch.del
  ord : ∀ n, s.msgs.get? n = some OutMsg.beingDeleted →
    ∃ k, k < n ∧ ∃ m, s.msgs.get? k = some m ∧ isPowClass m = true
  cmdLen : s.cmds.length = pcCount (fun pc => pc == PC.pDone) s
  cmdCount : ∀ i w, s.ws.get? i = some w →
    s.cmds.countP (fun c => c.1 == i) = (if w.pc = PC.pDone then 1 else 0)
  cmdShape : ∀ c ∈ s.cmds, ∃ w, s.ws.get? c.1 = some w ∧ c.2 = w.name ∧
    w.pc = PC.pDone

/-- The disconnect-call error code the source treats as benign
("ConnectionNotFound", compared as the string "123" on line 59). -/
def benign123 : Failure String → Bool
  | .api c _ => c == "123"
  | .exn _ => false

/-- Recogniser for the reservation-output error message of the disconnect
handler ("Error disconnecting apps. Error: ..."). -/
def isDisconnectErrorMsg : OutMsg → Bool
  | .errorDisconnectingApps _ => true
  | _ => false


/-- Replacing one list element changes `countP` by the difference of the
predicate on the old and the new element, stated addition-only. -/
theorem countP_set_balance {α : Type} (p : α → Bool) (l : List α) (i : Nat)
    (w w' : α) (h : l.get? i = some w) :
    (l.set i w').countP p + (if p w then 1 else 0)
      = l.countP p + (if p w' then 1 else 0) := by
  induction l generalizing i with
  | nil => simp at h
  | cons a t ih =>
    cases i with
    | zero =>
      simp only [List.get?_cons_zero, Option.some.injEq] at h
      subst h
      simp only [List.set, List.countP_cons]
      omega
    | succ n =>
      simp only [List.get?_cons_succ] at h
      simp only [List.set, List.countP_cons]
      have := ih n h
      omega

/-- If every element satisfying `p` sits at index `i`, the count is decided
by the element at `i`. -/
theorem countP_eq_ite_of_unique {α : Type} (p : α → Bool) (l : List α) (i : Nat)
    (w : α) (hw : l.get? i = some w)
    (hu : ∀ j v, l.get? j = some v → p v = true → j = i) :
    l.countP p = if p w then 1 else 0 := by
  induction l generalizing i with
  | nil => simp at hw
  | cons a t ih =>
    cases i with
    | zero =>
      simp only [List.get?_cons_zero, Option.some.injEq] at hw
      subst hw
      have ht : t.countP p = 0 := by
        rw [List.countP_eq_zero]
        intro v hv hp
        obtain ⟨n, hn⟩ := List.mem_iff_get?.mp hv
        have := hu (n + 1) v (by simpa using hn) hp
        omega
      simp [List.countP_cons, ht]
    | succ n =>
      simp only [List.get?_cons_succ] at hw
      have ha : p a = false := by
        by_contra hpa
        have : (0 : Nat) = n + 1 := hu 0 a rfl (by revert hpa; cases p a <;> simp)
        omega
      have := ih n hw (fun j v hj hp => by
        have := hu (j + 1) v (by simpa using hj) hp
        omega)
      simp [List.countP_cons, ha, this]

/-- Index lookup in a list extended by one element. -/
theorem get?_append_single {α : Type} {l : List α} {x y : α} {n : Nat}
    (h : (l ++ [x]).get? n = some y) :
    l.get? n = some y ∨ (n = l.length ∧ y = x) := by
  rcases Nat.lt_trichotomy n l.length with hlt | heq | hgt
  · left
    rw [List.get?_append hlt] at h
    exact h
  · right
    subst heq
    rw [List.get?_concat_length] at h
    exact ⟨rfl, (Option.some.injEq _ _).mp h.symm⟩
  · exfalso
    have : (l ++ [x]).get? n = none := by
      rw [List.get?_eq_none]
      simp
      omega
    rw [this] at h
    exact Option.noConfusion h

/-- A positive count yields an index carrying a satisfying element. -/
theorem exists_get?_of_countP_pos {α : Type} {p : α → Bool} {l : List α}
    (h : 0 < l.countP p) : ∃ n m, l.get? n = some m ∧ p m = true := by
  obtain ⟨a, ha, hpa⟩ := List.countP_pos.mp h
  obtain ⟨n, hn⟩ := List.mem_iff_get?.mp ha
  exact ⟨n, a, hn, hpa⟩

/-- Updating an element at an occupied index is observed at that index. -/
theorem get?_set_self {α : Type} {l : List α} {i : Nat} {w : α}
    (h : l.get? i = some w) (w' : α) : (l.set i w').get? i = some w' := by
  rw [List.get?_set_eq, h]
  rfl


/-- Preservation of the pool invariant by a step that only moves worker `i`
to a new program point `p'`, leaving flags, lock, messages and commands
unchanged.  The hypotheses record what the transition guarantees about the
new point. -/
theorem poolInv_update_pc {confs : List ResourceConf} {s : PoolState} {i : Nat}
    {w : WorkerState} (hI : PoolInv confs s) (hw : s.ws.get? i = some w) (p' : PC)
    (hbr : pcBranch p' = pcBranch w.pc)
    (hlk : inLock p' = inLock w.pc)
    (hdp : delPending p' = delPending w.pc)
    (hpp : powPending p' = powPending w.pc)
    (hdn : (p' == PC.pDone) = (w.pc == PC.pDone))
    (hnsd : p' = PC.dSetDelete → s.delete = false)
    (hnsp : p' = PC.dSetPower ∨ p' = PC.pSetPower → s.power_off = false)
    (hdk : delKnown p' = true → s.delete = true)
    (hpk : powKnown p' = true → s.power_off = true)
    (hwit : w.pc = PC.dCheckPower ∨ w.pc = PC.dSetPower →
      p' = PC.dCheckPower ∨ p' = PC.dSetPower ∨ s.power_off = true ∨ s.delete = false) :
    PoolInv confs { s with ws := s.ws.set i ⟨w.name, p'⟩ } := by
  have hset := get?_set_self hw (⟨w.name, p'⟩ : WorkerState)
  have hdniff : (p' = PC.pDone) ↔ (w.pc = PC.pDone) := by
    rw [← beq_iff_eq (a := p') (b := PC.pDone),
      ← beq_iff_eq (a := w.pc) (b := PC.pDone), hdn]
  constructor
  case len => simp [hI.len]
  case names =>
    intro j r v hc hv
    by_cases hj : j = i
    · subst hj
      rw [hset] at hv
      injection hv with hv
      subst hv
      obtain ⟨hn, hb⟩ := hI.names j r w hc hw
      exact ⟨hn, by rw [hbr, hb]⟩
    · rw [List.get?_set_ne _ _ (fun hh => hj hh.symm)] at hv
      exact hI.names j r v hc hv
  case mutex =>
    intro j v hv hl
    by_cases hj : j = i
    · subst hj
      rw [hset] at hv
      injection hv with hv
      subst hv
      exact hI.mutex j w hw (by rw [← hlk]; exact hl)
    · rw [List.get?_set_ne _ _ (fun hh => hj hh.symm)] at hv
      exact hI.mutex j v hv hl
  case tokDel =>
    have hb := countP_set_balance (fun v => delPending v.pc) s.ws i w ⟨w.name, p'⟩ hw
    simp only [hdp] at hb
    have hcnt := Nat.add_right_cancel hb
    show countDel s.msgs + (s.ws.set i ⟨w.name, p'⟩).countP (fun v => delPending v.pc) = s.delete.toNat
    rw [hcnt]
    exact hI.tokDel
  case tokPow =>
    have hb := countP_set_balance (fun v => powPending v.pc) s.ws i w ⟨w.name, p'⟩ hw
    simp only [hpp] at hb
    have hcnt := Nat.add_right_cancel hb
    show countPow s.msgs + (s.ws.set i ⟨w.name, p'⟩).countP (fun v => powPending v.pc) = s.power_off.toNat
    rw [hcnt]
    exact hI.tokPow
  case preDel =>
    intro j v hv hpc
    by_cases hj : j = i
    · subst hj
      rw [hset] at hv
      injection hv with hv
      subst hv
      exact hnsd hpc
    · rw [List.get?_set_ne _ _ (fun hh => hj hh.symm)] at hv
      exact hI.preDel j v hv hpc
  case prePow =>
    intro j v hv hpc
    by_cases hj : j = i
    · subst hj
      rw [hset] at hv
      injection hv with hv
      subst hv
      exact hnsp hpc
    · rw [List.get?_set_ne _ _ (fun hh => hj hh.symm)] at hv
      exact hI.prePow j v hv hpc
  case delSet =>
    intro j v hv hpc
    by_cases hj : j = i
    · subst hj
      rw [hset] at hv
      injection hv with hv
      subst hv
      exact hdk hpc
    · rw [List.get?_set_ne _ _ (fun hh => hj hh.symm)] at hv
      exact hI.delSet j v hv hpc
  case powSet =>
    intro j v hv hpc
    by_cases hj : j = i
    · subst hj
      rw [hset] at hv
      injection hv with hv
      subst hv
      exact hpk hpc
    · rw [List.get?_set_ne _ _ (fun hh => hj hh.symm)] at hv
      exact hI.powSet j v hv hpc
  case lockWitness =>
    intro hd hp
    obtain ⟨j, v, hhol, hv, hor⟩ := hI.lockWitness hd hp
    by_cases hj : j = i
    · subst hj
      rw [hw] at hv
      injection hv with hv
      subst hv
      rcases hwit hor with h1 | h2 | h3 | h4
      · exact ⟨j, ⟨w.name, p'⟩, hhol, hset, Or.inl h1⟩
      · exact ⟨j, ⟨w.name, p'⟩, hhol, hset, Or.inr h2⟩
      · rw [h3] at hp
        exact absurd hp (by simp)
      · rw [h4] at hd
        exact absurd hd (by simp)
    · exact ⟨j, v, hhol,
        by rw [List.get?_set_ne _ _ (fun hh => hj hh.symm)]; exact hv, hor⟩
  case delBranch =>
    intro hd
    obtain ⟨j, v, hv, hb2⟩ := hI.delBranch hd
    by_cases hj : j = i
    · subst hj
      rw [hw] at hv
      injection hv with hv
      subst hv
      exact ⟨j, ⟨w.name, p'⟩, hset, by rw [hbr]; exact hb2⟩
    · exact ⟨j, v,
        by rw [List.get?_set_ne _ _ (fun hh => hj hh.symm)]; exact hv, hb2⟩
  case ord => exact hI.ord
  case cmdLen =>
    have hb := countP_set_balance (fun v => v.pc == PC.pDone) s.ws i w ⟨w.name, p'⟩ hw
    simp only [hdn] at hb
    have hcnt := Nat.add_right_cancel hb
    show s.cmds.length = (s.ws.set i ⟨w.name, p'⟩).countP (fun v => v.pc == PC.pDone)
    rw [hcnt]
    exact hI.cmdLen
  case cmdCount =>
    intro j v hv
    by_cases hj : j = i
    · subst hj
      rw [hset] at hv
      injection hv with hv
      subst hv
      rw [if_congr hdniff rfl rfl]
      exact hI.cmdCount j w hw
    · rw [List.get?_set_ne _ _ (fun hh => hj hh.symm)] at hv
      exact hI.cmdCount j v hv
  case cmdShape =>
    intro c hc
    obtain ⟨v, hv, hn2, hp2⟩ := hI.cmdShape c hc
    by_cases hj : c.1 = i
    · rw [hj] at hv ⊢
      rw [hw] at hv
      injection hv with hv
      subst hv
      exact ⟨⟨w.name, p'⟩, hset, hn2, hdniff.mpr hp2⟩
    · exact ⟨v,
        by rw [List.get?_set_ne _ _ (fun hh => hj hh.symm)]; exact hv, hn2, hp2⟩

/-- Preservation of the pool invariant by a lock acquisition (`with lock`
entry, lines 137 and 163): worker `i` takes the free lock and moves to its
recheck point. -/
theorem poolInv_acquire {confs : List ResourceConf} {s : PoolState} {i : Nat}
    {w : WorkerState} (hI : PoolInv confs s) (hw : s.ws.get? i = some w)
    (hfree : s.holder = none) (p' : PC)
    (hbr : pcBranch p' = pcBranch w.pc)
    (hdp : delPending p' = false) (hdp0 : delPending w.pc = false)
    (hpp : powPending p' = false) (hpp0 : powPending w.pc = false)
    (hdn : p' ≠ PC.pDone) (hdn0 : w.pc ≠ PC.pDone)
    (hnsd : p' ≠ PC.dSetDelete)
    (hnsp : p' ≠ PC.dSetPower) (hnsp2 : p' ≠ PC.pSetPower)
    (hdk : delKnown p' = false) (hpk : powKnown p' = false) :
    PoolInv confs { s with holder := some i, ws := s.ws.set i ⟨w.name, p'⟩ } := by
  have hset := get?_set_self hw (⟨w.name, p'⟩ : WorkerState)
  have hnolock : ∀ j v, s.ws.get? j = some v → inLock v.pc = false := by
    intro j v hv
    cases hl : inLock v.pc
    · rfl
    · have h2 := hI.mutex j v hv hl
      rw [hfree] at h2
      exact Option.noConfusion h2
  constructor
  case len => simp [hI.len]
  case names =>
    intro j r v hc hv
    by_cases hj : j = i
    · subst hj
      rw [hset] at hv
      injection hv with hv
      subst hv
      obtain ⟨hn, hb⟩ := hI.names j r w hc hw
      exact ⟨hn, by rw [hbr, hb]⟩
    · rw [List.get?_set_ne _ _ (fun hh => hj hh.symm)] at hv
      exact hI.names j r v hc hv
  case mutex =>
    intro j v hv hl
    by_cases hj : j = i
    · subst hj
      rfl
    · rw [List.get?_set_ne _ _ (fun hh => hj hh.symm)] at hv
      rw [hnolock j v hv] at hl
      exact Bool.noConfusion hl
  case tokDel =>
    have hb := countP_set_balance (fun v => delPending v.pc) s.ws i w ⟨w.name, p'⟩ hw
    simp only [hdp, hdp0] at hb
    have hcnt := Nat.add_right_cancel hb
    show countDel s.msgs + (s.ws.set i ⟨w.name, p'⟩).countP (fun v => delPending v.pc) = s.delete.toNat
    rw [hcnt]
    exact hI.tokDel
  case tokPow =>
    have hb := countP_set_balance (fun v => powPending v.pc) s.ws i w ⟨w.name, p'⟩ hw
    simp only [hpp, hpp0] at hb
    have hcnt := Nat.add_right_cancel hb
    show countPow s.msgs + (s.ws.set i ⟨w.name, p'⟩).countP (fun v => powPending v.pc) = s.power_off.toNat
    rw [hcnt]
    exact hI.tokPow
  case preDel =>
    intro j v hv hpcv
    by_cases hj : j = i
    · subst hj
      rw [hset] at hv
      injection hv with hv
      subst hv
      exact absurd hpcv hnsd
    · rw [List.get?_set_ne _ _ (fun hh => hj hh.symm)] at hv
      exact hI.preDel j v hv hpcv
  case prePow =>
    intro j v hv hpcv
    by_cases hj : j = i
    · subst hj
      rw [hset] at hv
      injection hv with hv
      subst hv
      rcases hpcv with h1 | h2
      · exact absurd h1 hnsp
      · exact absurd h2 hnsp2
    · rw [List.get?_set_ne _ _ (fun hh => hj hh.symm)] at hv
      exact hI.prePow j v hv hpcv
  case delSet =>
    intro j v hv hk
    by_cases hj : j = i
    · subst hj
      rw [hset] at hv
      injection hv with hv
      subst hv
      rw [hdk] at hk
      exact Bool.noConfusion hk
    · rw [List.get?_set_ne _ _ (fun hh => hj hh.symm)] at hv
      exact hI.delSet j v hv hk
  case powSet =>
    intro j v hv hk
    by_cases hj : j = i
    · subst hj
      rw [hset] at hv
      injection hv with hv
      subst hv
      rw [hpk] at hk
      exact Bool.noConfusion hk
    · rw [List.get?_set_ne _ _ (fun hh => hj hh.symm)] at hv
      exact hI.powSet j v hv hk
  case lockWitness =>
    intro hd hp
    obtain ⟨j, v, hhol, hv, hor⟩ := hI.lockWitness hd hp
    rw [hfree] at hhol
    exact Option.noConfusion hhol
  case delBranch =>
    intro hd
    obtain ⟨j, v, hv, hb2⟩ := hI.delBranch hd
    by_cases hj : j = i
    · subst hj
      rw [hw] at hv
      injection hv with hv
      subst hv
      exact ⟨j, ⟨w.name, p'⟩, hset, by rw [hbr]; exact hb2⟩
    · exact ⟨j, v,
        by rw [List.get?_set_ne _ _ (fun hh => hj hh.symm)]; exact hv, hb2⟩
  case ord => exact hI.ord
  case cmdLen =>
    have hb := countP_set_balance (fun v => v.pc == PC.pDone) s.ws i w ⟨w.name, p'⟩ hw
    have e1 : (p' == PC.pDone) = false := by
      simp [hdn]
    have e0 : (w.pc == PC.pDone) = false := by
      simp [hdn0]
    simp only [e0, e1, Bool.false_eq_true, if_false] at hb
    have hl2 := hI.cmdLen
    simp only [pcCount] at hl2 ⊢
    omega
  case cmdCount =>
    intro j v hv
    by_cases hj : j = i
    · subst hj
      rw [hset] at hv
      injection hv with hv
      subst hv
      have h0 := hI.cmdCount j w hw
      rw [if_neg hdn0] at h0
      rw [if_neg hdn]
      exact h0
    · rw [List.get?_set_ne _ _ (fun hh => hj hh.symm)] at hv
      exact hI.cmdCount j v hv
  case cmdShape =>
    intro c hc
    obtain ⟨v, hv, hn2, hp2⟩ := hI.cmdShape c hc
    by_cases hj : c.1 = i
    · rw [hj] at hv
      rw [hw] at hv
      injection hv with hv
      subst hv
      exact absurd hp2 hdn0
    · exact ⟨v,
        by rw [List.get?_set_ne _ _ (fun hh => hj hh.symm)]; exact hv, hn2, hp2⟩

/-- Preservation of the pool invariant by a lock release (`with lock` exit):
worker `i` holds the lock, frees it and moves to a point outside the lock. -/
theorem poolInv_release {confs : List ResourceConf} {s : PoolState} {i : Nat}
    {w : WorkerState} (hI : PoolInv confs s) (hw : s.ws.get? i = some w)
    (hl0 : inLock w.pc = true) (p' : PC)
    (hbr : pcBranch p' = pcBranch w.pc)
    (hlk : inLock p' = false)
    (hdp : delPending p' = false) (hdp0 : delPending w.pc = false)
    (hpp : powPending p' = false) (hpp0 : powPending w.pc = false)
    (hdn : p' ≠ PC.pDone) (hdn0 : w.pc ≠ PC.pDone)
    (hnsd : p' ≠ PC.dSetDelete)
    (hnsp : p' ≠ PC.dSetPower) (hnsp2 : p' ≠ PC.pSetPower)
    (hdk : delKnown p' = true → s.delete = true)
    (hpk : powKnown p' = true → s.power_off = true)
    (hwit0 : w.pc ≠ PC.dCheckPower) (hwit1 : w.pc ≠ PC.dSetPower) :
    PoolInv confs { s with holder := none, ws := s.ws.set i ⟨w.name, p'⟩ } := by
  have hset := get?_set_self hw (⟨w.name, p'⟩ : WorkerState)
  have hhol : s.holder = some i := hI.mutex i w hw hl0
  have honlyi : ∀ j v, s.ws.get? j = some v → inLock v.pc = true → j = i := by
    intro j v hv hl
    have h2 := hI.mutex j v hv hl
    rw [hhol] at h2
    injection h2 with h2
    exact h2.symm
  constructor
  case len => simp [hI.len]
  case names =>
    intro j r v hc hv
    by_cases hj : j = i
    · subst hj
      rw [hset] at hv
      injection hv with hv
      subst hv
      obtain ⟨hn, hb⟩ := hI.names j r w hc hw
      exact ⟨hn, by rw [hbr, hb]⟩
    · rw [List.get?_set_ne _ _ (fun hh => hj hh.symm)] at hv
      exact hI.names j r v hc hv
  case mutex =>
    intro j v hv hl
    by_cases hj : j = i
    · subst hj
      rw [hset] at hv
      injection hv with hv
      subst hv
      rw [hlk] at hl
      exact Bool.noConfusion hl
    · rw [List.get?_set_ne _ _ (fun hh => hj hh.symm)] at hv
      exact absurd (honlyi j v hv hl) hj
  case tokDel =>
    have hb := countP_set_balance (fun v => delPending v.pc) s.ws i w ⟨w.name, p'⟩ hw
    simp only [hdp, hdp0] at hb
    have hcnt := Nat.add_right_cancel hb
    show countDel s.msgs + (s.ws.set i ⟨w.name, p'⟩).countP (fun v => delPending v.pc) = s.delete.toNat
    rw [hcnt]
    exact hI.tokDel
  case tokPow =>
    have hb := countP_set_balance (fun v => powPending v.pc) s.ws i w ⟨w.name, p'⟩ hw
    simp only [hpp, hpp0] at hb
    have hcnt := Nat.add_right_cancel hb
    show countPow s.msgs + (s.ws.set i ⟨w.name, p'⟩).countP (fun v => powPending v.pc) = s.power_off.toNat
    rw [hcnt]
    exact hI.tokPow
  case preDel =>
    intro j v hv hpcv
    by_cases hj : j = i
    · subst hj
      rw [hset] at hv
      injection hv with hv
      subst hv
      exact absurd hpcv hnsd
    · rw [List.get?_set_ne _ _ (fun hh => hj hh.symm)] at hv
      exact hI.preDel j v hv hpcv
  case prePow =>
    intro j v hv hpcv
    by_cases hj : j = i
    · subst hj
      rw [hset] at hv
      injection hv with hv
      subst hv
      rcases hpcv with h1 | h2
      · exact absurd h1 hnsp
      · exact absurd h2 hnsp2
    · rw [List.get?_set_ne _ _ (fun hh => hj hh.symm)] at hv
      exact hI.prePow j v hv hpcv
  case delSet =>
    intro j v hv hk
    by_cases hj : j = i
    · subst hj
      rw [hset] at hv
      injection hv with hv
      subst hv
      exact hdk hk
    · rw [List.get?_set_ne _ _ (fun hh => hj hh.symm)] at hv
      exact hI.delSet j v hv hk
  case powSet =>
    intro j v hv hk
    by_cases hj : j = i
    · subst hj
      rw [hset] at hv
      injection hv with hv
      subst hv
      exact hpk hk
    · rw [List.get?_set_ne _ _ (fun hh => hj hh.symm)] at hv
      exact hI.powSet j v hv hk
  case lockWitness =>
    intro hd hp
    obtain ⟨j, v, hhol2, hv, hor⟩ := hI.lockWitness hd hp
    rw [hhol] at hhol2
    injection hhol2 with hhol2
    subst hhol2
    rw [hw] at hv
    injection hv with hv
    subst hv
    rcases hor with h1 | h2
    · exact absurd h1 hwit0
    · exact absurd h2 hwit1
  case delBranch =>
    intro hd
    obtain ⟨j, v, hv, hb2⟩ := hI.delBranch hd
    by_cases hj : j = i
    · subst hj
      rw [hw] at hv
      injection hv with hv
      subst hv
      exact ⟨j, ⟨w.name, p'⟩, hset, by rw [hbr]; exact hb2⟩
    · exact ⟨j, v,
        by rw [List.get?_set_ne _ _ (fun hh => hj hh.symm)]; exact hv, hb2⟩
  case ord => exact hI.ord
  case cmdLen =>
    have hb := countP_set_balance (fun v => v.pc == PC.pDone) s.ws i w ⟨w.name, p'⟩ hw
    have e1 : (p' == PC.pDone) = false := by
      simp [hdn]
    have e0 : (w.pc == PC.pDone) = false := by
      simp [hdn0]
    simp only [e0, e1, Bool.false_eq_true, if_false] at hb
    have hl2 := hI.cmdLen
    simp only [pcCount] at hl2 ⊢
    omega
  case cmdCount =>
    intro j v hv
    by_cases hj : j = i
    · subst hj
      rw [hset] at hv
      injection hv with hv
      subst hv
      have h0 := hI.cmdCount j w hw
      rw [if_neg hdn0] at h0
      rw [if_neg hdn]
      exact h0
    · rw [List.get?_set_ne _ _ (fun hh => hj hh.symm)] at hv
      exact hI.cmdCount j v hv
  case cmdShape =>
    intro c hc
    obtain ⟨v, hv, hn2, hp2⟩ := hI.cmdShape c hc
    by_cases hj : c.1 = i
    · rw [hj] at hv
      rw [hw] at hv
      injection hv with hv
      subst hv
      exact absurd hp2 hdn0
    · exact ⟨v,
        by rw [List.get?_set_ne _ _ (fun hh => hj hh.symm)]; exact hv, hn2, hp2⟩

/-- Preservation of the pool invariant by the write of line 139
(`message_status['delete'] = True`), performed under the lock. -/
theorem poolInv_dSetDelete {confs : List ResourceConf} {s : PoolState} {i : Nat}
    {w : WorkerState} (hI : PoolInv confs s) (hw : s.ws.get? i = some w)
    (hpc : w.pc = PC.dSetDelete) :
    PoolInv confs { s with delete := true, ws := s.ws.set i ⟨w.name, PC.dCheckPower⟩ } := by
  have hset := get?_set_self hw (⟨w.name, PC.dCheckPower⟩ : WorkerState)
  have hhol : s.holder = some i := hI.mutex i w hw (by rw [hpc]; rfl)
  have hdelF : s.delete = false := hI.preDel i w hw hpc
  have honlyi : ∀ j v, s.ws.get? j = some v → inLock v.pc = true → j = i := by
    intro j v hv hl
    have h2 := hI.mutex j v hv hl
    rw [hhol] at h2
    injection h2 with h2
    exact h2.symm
  constructor
  case len => simp [hI.len]
  case names =>
    intro j r v hc hv
    by_cases hj : j = i
    · subst hj
      rw [hset] at hv
      injection hv with hv
      subst hv
      obtain ⟨hn, hb⟩ := hI.names j r w hc hw
      rw [hpc] at hb
      exact ⟨hn, hb⟩
    · rw [List.get?_set_ne _ _ (fun hh => hj hh.symm)] at hv
      exact hI.names j r v hc hv
  case mutex =>
    intro j v hv hl
    by_cases hj : j = i
    · subst hj
      exact hhol
    · rw [List.get?_set_ne _ _ (fun hh => hj hh.symm)] at hv
      exact hI.mutex j v hv hl
  case tokDel =>
    have ht := hI.tokDel
    rw [hdelF] at ht
    simp only [pcCount, Bool.toNat_false] at ht
    have hb := countP_set_balance (fun v => delPending v.pc) s.ws i w ⟨w.name, PC.dCheckPower⟩ hw
    simp only [hpc] at hb
    have e0 : delPending PC.dSetDelete = false := rfl
    have e1 : delPending PC.dCheckPower = true := rfl
    simp [e0, e1] at hb
    show countDel s.msgs + (s.ws.set i ⟨w.name, PC.dCheckPower⟩).countP (fun v => delPending v.pc) = Bool.toNat true
    simp only [Bool.toNat_true]
    omega
  case tokPow =>
    have ht := hI.tokPow
    simp only [pcCount] at ht
    have hb := countP_set_balance (fun v => powPending v.pc) s.ws i w ⟨w.name, PC.dCheckPower⟩ hw
    simp only [hpc] at hb
    have e0 : powPending PC.dSetDelete = false := rfl
    have e1 : powPending PC.dCheckPower = false := rfl
    simp [e0, e1] at hb
    show countPow s.msgs + (s.ws.set i ⟨w.name, PC.dCheckPower⟩).countP (fun v => powPending v.pc) = s.power_off.toNat
    omega
  case preDel =>
    intro j v hv hpcv
    by_cases hj : j = i
    · subst hj
      rw [hset] at hv
      injection hv with hv
      subst hv
      exact PC.noConfusion hpcv
    · rw [List.get?_set_ne _ _ (fun hh => hj hh.symm)] at hv
      exact absurd (honlyi j v hv (by rw [hpcv]; rfl)) hj
  case prePow =>
    intro j v hv hpcv
    by_cases hj : j = i
    · subst hj
      rw [hset] at hv
      injection hv with hv
      subst hv
      rcases hpcv with h1 | h2
      · exact PC.noConfusion h1
      · exact PC.noConfusion h2
    · rw [List.get?_set_ne _ _ (fun hh => hj hh.symm)] at hv
      exact hI.prePow j v hv hpcv
  case delSet =>
    intro j v hv hk
    rfl
  case powSet =>
    intro j v hv hk
    by_cases hj : j = i
    · subst hj
      rw [hset] at hv
      injection hv with hv
      subst hv
      exact Bool.noConfusion hk
    · rw [List.get?_set_ne _ _ (fun hh => hj hh.symm)] at hv
      exact hI.powSet j v hv hk
  case lockWitness =>
    intro hd hp
    exact ⟨i, ⟨w.name, PC.dCheckPower⟩, hhol, hset, Or.inl rfl⟩
  case delBranch =>
    intro hd
    exact ⟨i, ⟨w.name, PC.dCheckPower⟩, hset, rfl⟩
  case ord => exact hI.ord
  case cmdLen =>
    have hb := countP_set_balance (fun v => v.pc == PC.pDone) s.ws i w ⟨w.name, PC.dCheckPower⟩ hw
    simp only [hpc] at hb
    simp at hb
    have hl2 := hI.cmdLen
    simp only [pcCount] at hl2 ⊢
    omega
  case cmdCount =>
    intro j v hv
    by_cases hj : j = i
    · subst hj
      rw [hset] at hv
      injection hv with hv
      subst hv
      have h0 := hI.cmdCount j w hw
      rw [hpc] at h0
      rw [if_neg (by decide)] at h0
      rw [if_neg (fun hh => PC.noConfusion hh)]
      exact h0
    · rw [List.get?_set_ne _ _ (fun hh => hj hh.symm)] at hv
      exact hI.cmdCount j v hv
  case cmdShape =>
    intro c hc
    obtain ⟨v, hv, hn2, hp2⟩ := hI.cmdShape c hc
    by_cases hj : c.1 = i
    · rw [hj] at hv
      rw [hw] at hv
      injection hv with hv
      subst hv
      rw [hpc] at hp2
      exact PC.noConfusion hp2
    · exact ⟨v,
        by rw [List.get?_set_ne _ _ (fun hh => hj hh.symm)]; exact hv, hn2, hp2⟩

/-- Preservation of the pool invariant by the write of line 141
(`message_status['power_off'] = True` in the delete branch), performed
under the lock. -/
theorem poolInv_dSetPower {confs : List ResourceConf} {s : PoolState} {i : Nat}
    {w : WorkerState} (hI : PoolInv confs s) (hw : s.ws.get? i = some w)
    (hpc : w.pc = PC.dSetPower) :
    PoolInv confs { s with power_off := true, ws := s.ws.set i ⟨w.name, PC.dEmitBoth⟩ } := by
  have hset := get?_set_self hw (⟨w.name, PC.dEmitBoth⟩ : WorkerState)
  have hhol : s.holder = some i := hI.mutex i w hw (by rw [hpc]; rfl)
  have hpowF : s.power_off = false := hI.prePow i w hw (Or.inl hpc)
  have honlyi : ∀ j v, s.ws.get? j = some v → inLock v.pc = true → j = i := by
    intro j v hv hl
    have h2 := hI.mutex j v hv hl
    rw [hhol] at h2
    injection h2 with h2
    exact h2.symm
  constructor
  case len => simp [hI.len]
  case names =>
    intro j r v hc hv
    by_cases hj : j = i
    · subst hj
      rw [hset] at hv
      injection hv with hv
      subst hv
      obtain ⟨hn, hb⟩ := hI.names j r w hc hw
      rw [hpc] at hb
      exact ⟨hn, hb⟩
    · rw [List.get?_set_ne _ _ (fun hh => hj hh.symm)] at hv
      exact hI.names j r v hc hv
  case mutex =>
    intro j v hv hl
    by_cases hj : j = i
    · subst hj
      exact hhol
    · rw [List.get?_set_ne _ _ (fun hh => hj hh.symm)] at hv
      exact hI.mutex j v hv hl
  case tokDel =>
    have ht := hI.tokDel
    simp only [pcCount] at ht
    have hb := countP_set_balance (fun v => delPending v.pc) s.ws i w ⟨w.name, PC.dEmitBoth⟩ hw
    simp only [hpc] at hb
    have e0 : delPending PC.dSetPower = true := rfl
    have e1 : delPending PC.dEmitBoth = true := rfl
    simp [e0, e1] at hb
    show countDel s.msgs + (s.ws.set i ⟨w.name, PC.dEmitBoth⟩).countP (fun v => delPending v.pc) = s.delete.toNat
    omega
  case tokPow =>
    have ht := hI.tokPow
    rw [hpowF] at ht
    simp only [pcCount, Bool.toNat_false] at ht
    have hb := countP_set_balance (fun v => powPending v.pc) s.ws i w ⟨w.name, PC.dEmitBoth⟩ hw
    simp only [hpc] at hb
    have e0 : powPending PC.dSetPower = false := rfl
    have e1 : powPending PC.dEmitBoth = true := rfl
    simp [e0, e1] at hb
    show countPow s.msgs + (s.ws.set i ⟨w.name, PC.dEmitBoth⟩).countP (fun v => powPending v.pc) = Bool.toNat true
    simp only [Bool.toNat_true]
    omega
  case preDel =>
    intro j v hv hpcv
    by_cases hj : j = i
    · subst hj
      rw [hset] at hv
      injection hv with hv
      subst hv
      exact PC.noConfusion hpcv
    · rw [List.get?_set_ne _ _ (fun hh => hj hh.symm)] at hv
      exact hI.preDel j v hv hpcv
  case prePow =>
    intro j v hv hpcv
    by_cases hj : j = i
    · subst hj
      rw [hset] at hv
      injection hv with hv
      subst hv
      rcases hpcv with h1 | h2
      · exact PC.noConfusion h1
      · exact PC.noConfusion h2
    · rw [List.get?_set_ne _ _ (fun hh => hj hh.symm)] at hv
      rcases hpcv with h1 | h2
      · exact absurd (honlyi j v hv (by rw [h1]; rfl)) hj
      · exact absurd (honlyi j v hv (by rw [h2]; rfl)) hj
  case delSet =>
    intro j v hv hk
    by_cases hj : j = i
    · subst hj
      exact hI.delSet j w hw (by rw [hpc]; rfl)
    · rw [List.get?_set_ne _ _ (fun hh => hj hh.symm)] at hv
      exact hI.delSet j v hv hk
  case powSet =>
    intro j v hv hk
    rfl
  case lockWitness =>
    intro hd hp
    exact Bool.noConfusion hp
  case delBranch =>
    intro hd
    exact ⟨i, ⟨w.name, PC.dEmitBoth⟩, hset, rfl⟩
  case ord => exact hI.ord
  case cmdLen =>
    have hb := countP_set_balance (fun v => v.pc == PC.pDone) s.ws i w ⟨w.name, PC.dEmitBoth⟩ hw
    simp only [hpc] at hb
    simp at hb
    have hl2 := hI.cmdLen
    simp only [pcCount] at hl2 ⊢
    omega
  case cmdCount =>
    intro j v hv
    by_cases hj : j = i
    · subst hj
      rw [hset] at hv
      injection hv with hv
      subst hv
      have h0 := hI.cmdCount j w hw
      rw [hpc] at h0
      rw [if_neg (by decide)] at h0
      rw [if_neg (fun hh => PC.noConfusion hh)]
      exact h0
    · rw [List.get?_set_ne _ _ (fun hh => hj hh.symm)] at hv
      exact hI.cmdCount j v hv
  case cmdShape =>
    intro c hc
    obtain ⟨v, hv, hn2, hp2⟩ := hI.cmdShape c hc
    by_cases hj : c.1 = i
    · rw [hj] at hv
      rw [hw] at hv
      injection hv with hv
      subst hv
      rw [hpc] at hp2
      exact PC.noConfusion hp2
    · exact ⟨v,
        by rw [List.get?_set_ne _ _ (fun hh => hj hh.symm)]; exact hv, hn2, hp2⟩

/-- Preservation of the pool invariant by the write of line 165
(`message_status['power_off'] = True` in the power-off branch), performed
under the lock. -/
theorem poolInv_pSetPower {confs : List ResourceConf} {s : PoolState} {i : Nat}
    {w : WorkerState} (hI : PoolInv confs s) (hw : s.ws.get? i = some w)
    (hpc : w.pc = PC.pSetPower) :
    PoolInv confs { s with power_off := true, ws := s.ws.set i ⟨w.name, PC.pEmit⟩ } := by
  have hset := get?_set_self hw (⟨w.name, PC.pEmit⟩ : WorkerState)
  have hhol : s.holder = some i := hI.mutex i w hw (by rw [hpc]; rfl)
  have hpowF : s.power_off = false := hI.prePow i w hw (Or.inr hpc)
  have honlyi : ∀ j v, s.ws.get? j = some v → inLock v.pc = true → j = i := by
    intro j v hv hl
    have h2 := hI.mutex j v hv hl
    rw [hhol] at h2
    injection h2 with h2
    exact h2.symm
  constructor
  case len => simp [hI.len]
  case names =>
    intro j r v hc hv
    by_cases hj : j = i
    · subst hj
      rw [hset] at hv
      injection hv with hv
      subst hv
      obtain ⟨hn, hb⟩ := hI.names j r w hc hw
      rw [hpc] at hb
      exact ⟨hn, hb⟩
    · rw [List.get?_set_ne _ _ (fun hh => hj hh.symm)] at hv
      exact hI.names j r v hc hv
  case mutex =>
    intro j v hv hl
    by_cases hj : j = i
    · subst hj
      exact hhol
    · rw [List.get?_set_ne _ _ (fun hh => hj hh.symm)] at hv
      exact hI.mutex j v hv hl
  case tokDel =>
    have ht := hI.tokDel
    simp only [pcCount] at ht
    have hb := countP_set_balance (fun v => delPending v.pc) s.ws i w ⟨w.name, PC.pEmit⟩ hw
    simp only [hpc] at hb
    have e0 : delPending PC.pSetPower = false := rfl
    have e1 : delPending PC.pEmit = false := rfl
    simp [e0, e1] at hb
    show countDel s.msgs + (s.ws.set i ⟨w.name, PC.pEmit⟩).countP (fun v => delPending v.pc) = s.delete.toNat
    omega
  case tokPow =>
    have ht := hI.tokPow
    rw [hpowF] at ht
    simp only [pcCount, Bool.toNat_false] at ht
    have hb := countP_set_balance (fun v => powPending v.pc) s.ws i w ⟨w.name, PC.pEmit⟩ hw
    simp only [hpc] at hb
    have e0 : powPending PC.pSetPower = false := rfl
    have e1 : powPending PC.pEmit = true := rfl
    simp [e0, e1] at hb
    show countPow s.msgs + (s.ws.set i ⟨w.name, PC.pEmit⟩).countP (fun v => powPending v.pc) = Bool.toNat true
    simp only [Bool.toNat_true]
    omega
  case preDel =>
    intro j v hv hpcv
    by_cases hj : j = i
    · subst hj
      rw [hset] at hv
      injection hv with hv
      subst hv
      exact PC.noConfusion hpcv
    · rw [List.get?_set_ne _ _ (fun hh => hj hh.symm)] at hv
      exact hI.preDel j v hv hpcv
  case prePow =>
    intro j v hv hpcv
    by_cases hj : j = i
    · subst hj
      rw [hset] at hv
      injection hv with hv
      subst hv
      rcases hpcv with h1 | h2
      · exact PC.noConfusion h1
      · exact PC.noConfusion h2
    · rw [List.get?_set_ne _ _ (fun hh => hj hh.symm)] at hv
      rcases hpcv with h1 | h2
      · exact absurd (honlyi j v hv (by rw [h1]; rfl)) hj
      · exact absurd (honlyi j v hv (by rw [h2]; rfl)) hj
  case delSet =>
    intro j v hv hk
    by_cases hj : j = i
    · subst hj
      rw [hset] at hv
      injection hv with hv
      subst hv
      exact Bool.noConfusion hk
    · rw [List.get?_set_ne _ _ (fun hh => hj hh.symm)] at hv
      exact hI.delSet j v hv hk
  case powSet =>
    intro j v hv hk
    rfl
  case lockWitness =>
    intro hd hp
    exact Bool.noConfusion hp
  case delBranch =>
    intro hd
    obtain ⟨j, v, hv, hb2⟩ := hI.delBranch hd
    by_cases hj : j = i
    · subst hj
      rw [hw] at hv
      injection hv with hv
      subst hv
      rw [hpc] at hb2
      exact Branch.noConfusion hb2
    · exact ⟨j, v,
        by rw [List.get?_set_ne _ _ (fun hh => hj hh.symm)]; exact hv, hb2⟩
  case ord => exact hI.ord
  case cmdLen =>
    have hb := countP_set_balance (fun v => v.pc == PC.pDone) s.ws i w ⟨w.name, PC.pEmit⟩ hw
    simp only [hpc] at hb
    simp at hb
    have hl2 := hI.cmdLen
    simp only [pcCount] at hl2 ⊢
    omega
  case cmdCount =>
    intro j v hv
    by_cases hj : j = i
    · subst hj
      rw [hset] at hv
      injection hv with hv
      subst hv
      have h0 := hI.cmdCount j w hw
      rw [hpc] at h0
      rw [if_neg (by decide)] at h0
      rw [if_neg (fun hh => PC.noConfusion hh)]
      exact h0
    · rw [List.get?_set_ne _ _ (fun hh => hj hh.symm)] at hv
      exact hI.cmdCount j v hv
  case cmdShape =>
    intro c hc
    obtain ⟨v, hv, hn2, hp2⟩ := hI.cmdShape c hc
    by_cases hj : c.1 = i
    · rw [hj] at hv
      rw [hw] at hv
      injection hv with hv
      subst hv
      rw [hpc] at hp2
      exact PC.noConfusion hp2
    · exact ⟨v,
        by rw [List.get?_set_ne _ _ (fun hh => hj hh.symm)]; exact hv, hn2, hp2⟩

/-- Counting over a list extended by one element. -/
theorem countP_snoc {α : Type} (p : α → Bool) (l : List α) (x : α) :
    (l ++ [x]).countP p = l.countP p + (if p x then 1 else 0) := by
  simp [List.countP_append, List.countP_cons]

/-- Every pending program point is inside the lock. -/
theorem delPending_inLock : ∀ pc, delPending pc = true → inLock pc = true := by
  intro pc h
  cases pc <;> first | rfl | exact Bool.noConfusion h

/-- Every pending program point is inside the lock. -/
theorem powPending_inLock : ∀ pc, powPending pc = true → inLock pc = true := by
  intro pc h
  cases pc <;> first | rfl | exact Bool.noConfusion h

/-- The message-order property survives appending a message that is not
the delete announcement. -/
theorem ord_snoc_nondel {msgs : List OutMsg} {x : OutMsg}
    (hx : x ≠ OutMsg.beingDeleted)
    (hord : ∀ n, msgs.get? n = some OutMsg.beingDeleted →
      ∃ k, k < n ∧ ∃ m, msgs.get? k = some m ∧ isPowClass m = true) :
    ∀ n, (msgs ++ [x]).get? n = some OutMsg.beingDeleted →
      ∃ k, k < n ∧ ∃ m, (msgs ++ [x]).get? k = some m ∧ isPowClass m = true := by
  intro n hn
  rcases get?_append_single hn with h | ⟨hlen, hx2⟩
  · obtain ⟨k, hk, m, hm, hpm⟩ := hord n h
    have hklt : k < msgs.length := by
      rcases List.get?_eq_some.mp hm with ⟨hh, _⟩
      exact hh
    exact ⟨k, hk, m, by rw [List.get?_append hklt]; exact hm, hpm⟩
  · exact absurd hx2.symm hx

/-- The message-order property survives appending the delete announcement
when a power-off-class message is already present. -/
theorem ord_snoc_del {msgs : List OutMsg}
    (hord : ∀ n, msgs.get? n = some OutMsg.beingDeleted →
      ∃ k, k < n ∧ ∃ m, msgs.get? k = some m ∧ isPowClass m = true)
    (hpow : 0 < countPow msgs) :
    ∀ n, (msgs ++ [OutMsg.beingDeleted]).get? n = some OutMsg.beingDeleted →
      ∃ k, k < n ∧ ∃ m, (msgs ++ [OutMsg.beingDeleted]).get? k = some m ∧
        isPowClass m = true := by
  intro n hn
  rcases get?_append_single hn with h | ⟨hlen, _⟩
  · obtain ⟨k, hk, m, hm, hpm⟩ := hord n h
    have hklt : k < msgs.length := by
      rcases List.get?_eq_some.mp hm with ⟨hh, _⟩
      exact hh
    exact ⟨k, hk, m, by rw [List.get?_append hklt]; exact hm, hpm⟩
  · obtain ⟨k, m, hm, hpm⟩ := exists_get?_of_countP_pos hpow
    have hklt : k < msgs.length := by
      rcases List.get?_eq_some.mp hm with ⟨hh, _⟩
      exact hh
    subst hlen
    exact ⟨k, hklt, m, by rw [List.get?_append hklt]; exact hm, hpm⟩

/-- Preservation of the pool invariant by the message write of line 142
(`Apps are being powered off and deleted...`), performed under the lock. -/
theorem poolInv_dEmitBoth {confs : List ResourceConf} {s : PoolState} {i : Nat}
    {w : WorkerState} (hI : PoolInv confs s) (hw : s.ws.get? i = some w)
    (hpc : w.pc = PC.dEmitBoth) :
    PoolInv confs { s with
      msgs := s.msgs ++ [OutMsg.poweredOffAndDeleted]
      ws := s.ws.set i ⟨w.name, PC.dRelease⟩ } := by
  have hset := get?_set_self hw (⟨w.name, PC.dRelease⟩ : WorkerState)
  have hhol : s.holder = some i := hI.mutex i w hw (by rw [hpc]; rfl)
  have hdel : s.delete = true := hI.delSet i w hw (by rw [hpc]; rfl)
  have hpow : s.power_off = true := hI.powSet i w hw (by rw [hpc]; rfl)
  have honlyi : ∀ j v, s.ws.get? j = some v → inLock v.pc = true → j = i := by
    intro j v hv hl
    have h2 := hI.mutex j v hv hl
    rw [hhol] at h2
    injection h2 with h2
    exact h2.symm
  constructor
  case len => simp [hI.len]
  case names =>
    intro j r v hc hv
    by_cases hj : j = i
    · subst hj
      rw [hset] at hv
      injection hv with hv
      subst hv
      obtain ⟨hn, hb⟩ := hI.names j r w hc hw
      rw [hpc] at hb
      exact ⟨hn, hb⟩
    · rw [List.get?_set_ne _ _ (fun hh => hj hh.symm)] at hv
      exact hI.names j r v hc hv
  case mutex =>
    intro j v hv hl
    by_cases hj : j = i
    · subst hj
      exact hhol
    · rw [List.get?_set_ne _ _ (fun hh => hj hh.symm)] at hv
      exact hI.mutex j v hv hl
  case tokDel =>
    have ht := hI.tokDel
    rw [hdel] at ht
    simp only [pcCount, Bool.toNat_true] at ht
    have hb := countP_set_balance (fun v => delPending v.pc) s.ws i w ⟨w.name, PC.dRelease⟩ hw
    simp only [hpc] at hb
    have e0 : delPending PC.dEmitBoth = true := rfl
    have e1 : delPending PC.dRelease = false := rfl
    simp [e0, e1] at hb
    have hc : countDel (s.msgs ++ [OutMsg.poweredOffAndDeleted]) = countDel s.msgs + 1 := by
      simp [countDel, countP_snoc, isDelClass]
    show countDel (s.msgs ++ [OutMsg.poweredOffAndDeleted])
      + (s.ws.set i ⟨w.name, PC.dRelease⟩).countP (fun v => delPending v.pc) = s.delete.toNat
    rw [hdel, hc]
    simp only [Bool.toNat_true]
    omega
  case tokPow =>
    have ht := hI.tokPow
    rw [hpow] at ht
    simp only [pcCount, Bool.toNat_true] at ht
    have hb := countP_set_balance (fun v => powPending v.pc) s.ws i w ⟨w.name, PC.dRelease⟩ hw
    simp only [hpc] at hb
    have e0 : powPending PC.dEmitBoth = true := rfl
    have e1 : powPending PC.dRelease = false := rfl
    simp [e0, e1] at hb
    have hc : countPow (s.msgs ++ [OutMsg.poweredOffAndDeleted]) = countPow s.msgs + 1 := by
      simp [countPow, countP_snoc, isPowClass]
    show countPow (s.msgs ++ [OutMsg.poweredOffAndDeleted])
      + (s.ws.set i ⟨w.name, PC.dRelease⟩).countP (fun v => powPending v.pc) = s.power_off.toNat
    rw [hpow, hc]
    simp only [Bool.toNat_true]
    omega
  case preDel =>
    intro j v hv hpcv
    by_cases hj : j = i
    · subst hj
      rw [hset] at hv
      injection hv with hv
      subst hv
      exact PC.noConfusion hpcv
    · rw [List.get?_set_ne _ _ (fun hh => hj hh.symm)] at hv
      exact hI.preDel j v hv hpcv
  case prePow =>
    intro j v hv hpcv
    by_cases hj : j = i
    · subst hj
      rw [hset] at hv
      injection hv with hv
      subst hv
      rcases hpcv with h1 | h2
      · exact PC.noConfusion h1
      · exact PC.noConfusion h2
    · rw [List.get?_set_ne _ _ (fun hh => hj hh.symm)] at hv
      exact hI.prePow j v hv hpcv
  case delSet =>
    intro j v hv hk
    by_cases hj : j = i
    · subst hj
      exact hdel
    · rw [List.get?_set_ne _ _ (fun hh => hj hh.symm)] at hv
      exact hI.delSet j v hv hk
  case powSet =>
    intro j v hv hk
    by_cases hj : j = i
    · subst hj
      exact hpow
    · rw [List.get?_set_ne _ _ (fun hh => hj hh.symm)] at hv
      exact hI.powSet j v hv hk
  case lockWitness =>
    intro hd hp
    have hp2 : s.power_off = false := hp
    rw [hpow] at hp2
    exact Bool.noConfusion hp2
  case delBranch =>
    intro hd
    exact ⟨i, ⟨w.name, PC.dRelease⟩, hset, rfl⟩
  case ord =>
    exact ord_snoc_nondel (by decide) hI.ord
  case cmdLen =>
    have hb := countP_set_balance (fun v => v.pc == PC.pDone) s.ws i w ⟨w.name, PC.dRelease⟩ hw
    simp only [hpc] at hb
    simp at hb
    have hl2 := hI.cmdLen
    simp only [pcCount] at hl2 ⊢
    omega
  case cmdCount =>
    intro j v hv
    by_cases hj : j = i
    · subst hj
      rw [hset] at hv
      injection hv with hv
      subst hv
      have h0 := hI.cmdCount j w hw
      rw [hpc] at h0
      rw [if_neg (by decide)] at h0
      rw [if_neg (fun hh => PC.noConfusion hh)]
      exact h0
    · rw [List.get?_set_ne _ _ (fun hh => hj hh.symm)] at hv
      exact hI.cmdCount j v hv
  case cmdShape =>
    intro c hc
    obtain ⟨v, hv, hn2, hp2⟩ := hI.cmdShape c hc
    by_cases hj : c.1 = i
    · rw [hj] at hv
      rw [hw] at hv
      injection hv with hv
      subst hv
      rw [hpc] at hp2
      exact PC.noConfusion hp2
    · exact ⟨v,
        by rw [List.get?_set_ne _ _ (fun hh => hj hh.symm)]; exact hv, hn2, hp2⟩

/-- Preservation of the pool invariant by the message write of line 145
(`Apps are being deleted...`), performed under the lock: it happens only
when the power-off flag was already set, so a power-off-class message is
already in the output. -/
theorem poolInv_dEmitDeleted {confs : List ResourceConf} {s : PoolState} {i : Nat}
    {w : WorkerState} (hI : PoolInv confs s) (hw : s.ws.get? i = some w)
    (hpc : w.pc = PC.dEmitDeleted) :
    PoolInv confs { s with
      msgs := s.msgs ++ [OutMsg.beingDeleted]
      ws := s.ws.set i ⟨w.name, PC.dRelease⟩ } := by
  have hset := get?_set_self hw (⟨w.name, PC.dRelease⟩ : WorkerState)
  have hhol : s.holder = some i := hI.mutex i w hw (by rw [hpc]; rfl)
  have hdel : s.delete = true := hI.delSet i w hw (by rw [hpc]; rfl)
  have hpow : s.power_off = true := hI.powSet i w hw (by rw [hpc]; rfl)
  have honlyi : ∀ j v, s.ws.get? j = some v → inLock v.pc = true → j = i := by
    intro j v hv hl
    have h2 := hI.mutex j v hv hl
    rw [hhol] at h2
    injection h2 with h2
    exact h2.symm
  have hpowcnt : countPow s.msgs = 1 := by
    have ht := hI.tokPow
    rw [hpow] at ht
    simp only [pcCount, Bool.toNat_true] at ht
    have hz : s.ws.countP (fun v => powPending v.pc) = if powPending w.pc then 1 else 0 :=
      countP_eq_ite_of_unique _ s.ws i w hw
        (fun j v hj hp => honlyi j v hj (powPending_inLock v.pc hp))
    rw [hpc] at hz
    have e0 : powPending PC.dEmitDeleted = false := rfl
    simp only [e0, Bool.false_eq_true, if_false] at hz
    omega
  constructor
  case len => simp [hI.len]
  case names =>
    intro j r v hc hv
    by_cases hj : j = i
    · subst hj
      rw [hset] at hv
      injection hv with hv
      subst hv
      obtain ⟨hn, hb⟩ := hI.names j r w hc hw
      rw [hpc] at hb
      exact ⟨hn, hb⟩
    · rw [List.get?_set_ne _ _ (fun hh => hj hh.symm)] at hv
      exact hI.names j r v hc hv
  case mutex =>
    intro j v hv hl
    by_cases hj : j = i
    · subst hj
      exact hhol
    · rw [List.get?_set_ne _ _ (fun hh => hj hh.symm)] at hv
      exact hI.mutex j v hv hl
  case tokDel =>
    have ht := hI.tokDel
    rw [hdel] at ht
    simp only [pcCount, Bool.toNat_true] at ht
    have hb := countP_set_balance (fun v => delPending v.pc) s.ws i w ⟨w.name, PC.dRelease⟩ hw
    simp only [hpc] at hb
    have e0 : delPending PC.dEmitDeleted = true := rfl
    have e1 : delPending PC.dRelease = false := rfl
    simp [e0, e1] at hb
    have hc : countDel (s.msgs ++ [OutMsg.beingDeleted]) = countDel s.msgs + 1 := by
      simp [countDel, countP_snoc, isDelClass]
    show countDel (s.msgs ++ [OutMsg.beingDeleted])
      + (s.ws.set i ⟨w.name, PC.dRelease⟩).countP (fun v => delPending v.pc) = s.delete.toNat
    rw [hdel, hc]
    simp only [Bool.toNat_true]
    omega
  case tokPow =>
    have ht := hI.tokPow
    simp only [pcCount] at ht
    have hb := countP_set_balance (fun v => powPending v.pc) s.ws i w ⟨w.name, PC.dRelease⟩ hw
    simp only [hpc] at hb
    have e0 : powPending PC.dEmitDeleted = false := rfl
    have e1 : powPending PC.dRelease = false := rfl
    simp [e0, e1] at hb
    have hc : countPow (s.msgs ++ [OutMsg.beingDeleted]) = countPow s.msgs := by
      simp [countPow, countP_snoc, isPowClass]
    show countPow (s.msgs ++ [OutMsg.beingDeleted])
      + (s.ws.set i ⟨w.name, PC.dRelease⟩).countP (fun v => powPending v.pc) = s.power_off.toNat
    rw [hc]
    omega
  case preDel =>
    intro j v hv hpcv
    by_cases hj : j = i
    · subst hj
      rw [hset] at hv
      injection hv with hv
      subst hv
      exact PC.noConfusion hpcv
    · rw [List.get?_set_ne _ _ (fun hh => hj hh.symm)] at hv
      exact hI.preDel j v hv hpcv
  case prePow =>
    intro j v hv hpcv
    by_cases hj : j = i
    · subst hj
      rw [hset] at hv
      injection hv with hv
      subst hv
      rcases hpcv with h1 | h2
      · exact PC.noConfusion h1
      · exact PC.noConfusion h2
    · rw [List.get?_set_ne _ _ (fun hh => hj hh.symm)] at hv
      exact hI.prePow j v hv hpcv
  case delSet =>
    intro j v hv hk
    by_cases hj : j = i
    · subst hj
      exact hdel
    · rw [List.get?_set_ne _ _ (fun hh => hj hh.symm)] at hv
      exact hI.delSet j v hv hk
  case powSet =>
    intro j v hv hk
    by_cases hj : j = i
    · subst hj
      exact hpow
    · rw [List.get?_set_ne _ _ (fun hh => hj hh.symm)] at hv
      exact hI.powSet j v hv hk
  case lockWitness =>
    intro hd hp
    have hp2 : s.power_off = false := hp
    rw [hpow] at hp2
    exact Bool.noConfusion hp2
  case delBranch =>
    intro hd
    exact ⟨i, ⟨w.name, PC.dRelease⟩, hset, rfl⟩
  case ord =>
    exact ord_snoc_del hI.ord (by rw [hpowcnt]; exact Nat.zero_lt_one)
  case cmdLen =>
    have hb := countP_set_balance (fun v => v.pc == PC.pDone) s.ws i w ⟨w.name, PC.dRelease⟩ hw
    simp only [hpc] at hb
    simp at hb
    have hl2 := hI.cmdLen
    simp only [pcCount] at hl2 ⊢
    omega
  case cmdCount =>
    intro j v hv
    by_cases hj : j = i
    · subst hj
      rw [hset] at hv
      injection hv with hv
      subst hv
      have h0 := hI.cmdCount j w hw
      rw [hpc] at h0
      rw [if_neg (by decide)] at h0
      rw [if_neg (fun hh => PC.noConfusion hh)]
      exact h0
    · rw [List.get?_set_ne _ _ (fun hh => hj hh.symm)] at hv
      exact hI.cmdCount j v hv
  case cmdShape =>
    intro c hc
    obtain ⟨v, hv, hn2, hp2⟩ := hI.cmdShape c hc
    by_cases hj : c.1 = i
    · rw [hj] at hv
      rw [hw] at hv
      injection hv with hv
      subst hv
      rw [hpc] at hp2
      exact PC.noConfusion hp2
    · exact ⟨v,
        by rw [List.get?_set_ne _ _ (fun hh => hj hh.symm)]; exact hv, hn2, hp2⟩

/-- Preservation of the pool invariant by the message write of line 166
(`Apps are powering off...`), performed under the lock. -/
theorem poolInv_pEmit {confs : List ResourceConf} {s : PoolState} {i : Nat}
    {w : WorkerState} (hI : PoolInv confs s) (hw : s.ws.get? i = some w)
    (hpc : w.pc = PC.pEmit) :
    PoolInv confs { s with
      msgs := s.msgs ++ [OutMsg.poweringOff]
      ws := s.ws.set i ⟨w.name, PC.pRelease⟩ } := by
  have hset := get?_set_self hw (⟨w.name, PC.pRelease⟩ : WorkerState)
  have hhol : s.holder = some i := hI.mutex i w hw (by rw [hpc]; rfl)
  have hpow : s.power_off = true := hI.powSet i w hw (by rw [hpc]; rfl)
  have honlyi : ∀ j v, s.ws.get? j = some v → inLock v.pc = true → j = i := by
    intro j v hv hl
    have h2 := hI.mutex j v hv hl
    rw [hhol] at h2
    injection h2 with h2
    exact h2.symm
  constructor
  case len => simp [hI.len]
  case names =>
    intro j r v hc hv
    by_cases hj : j = i
    · subst hj
      rw [hset] at hv
      injection hv with hv
      subst hv
      obtain ⟨hn, hb⟩ := hI.names j r w hc hw
      rw [hpc] at hb
      exact ⟨hn, hb⟩
    · rw [List.get?_set_ne _ _ (fun hh => hj hh.symm)] at hv
      exact hI.names j r v hc hv
  case mutex =>
    intro j v hv hl
    by_cases hj : j = i
    · subst hj
      exact hhol
    · rw [List.get?_set_ne _ _ (fun hh => hj hh.symm)] at hv
      exact hI.mutex j v hv hl
  case tokDel =>
    have ht := hI.tokDel
    simp only [pcCount] at ht
    have hb := countP_set_balance (fun v => delPending v.pc) s.ws i w ⟨w.name, PC.pRelease⟩ hw
    simp only [hpc] at hb
    have e0 : delPending PC.pEmit = false := rfl
    have e1 : delPending PC.pRelease = false := rfl
    simp [e0, e1] at hb
    have hc : countDel (s.msgs ++ [OutMsg.poweringOff]) = countDel s.msgs := by
      simp [countDel, countP_snoc, isDelClass]
    show countDel (s.msgs ++ [OutMsg.poweringOff])
      + (s.ws.set i ⟨w.name, PC.pRelease⟩).countP (fun v => delPending v.pc) = s.delete.toNat
    rw [hc]
    omega
  case tokPow =>
    have ht := hI.tokPow
    rw [hpow] at ht
    simp only [pcCount, Bool.toNat_true] at ht
    have hb := countP_set_balance (fun v => powPending v.pc) s.ws i w ⟨w.name, PC.pRelease⟩ hw
    simp only [hpc] at hb
    have e0 : powPending PC.pEmit = true := rfl
    have e1 : powPending PC.pRelease = false := rfl
    simp [e0, e1] at hb
    have hc : countPow (s.msgs ++ [OutMsg.poweringOff]) = countPow s.msgs + 1 := by
      simp [countPow, countP_snoc, isPowClass]
    show countPow (s.msgs ++ [OutMsg.poweringOff])
      + (s.ws.set i ⟨w.name, PC.pRelease⟩).countP (fun v => powPending v.pc) = s.power_off.toNat
    rw [hpow, hc]
    simp only [Bool.toNat_true]
    omega
  case preDel =>
    intro j v hv hpcv
    by_cases hj : j = i
    · subst hj
      rw [hset] at hv
      injection hv with hv
      subst hv
      exact PC.noConfusion hpcv
    · rw [List.get?_set_ne _ _ (fun hh => hj hh.symm)] at hv
      exact hI.preDel j v hv hpcv
  case prePow =>
    intro j v hv hpcv
    by_cases hj : j = i
    · subst hj
      rw [hset] at hv
      injection hv with hv
      subst hv
      rcases hpcv with h1 | h2
      · exact PC.noConfusion h1
      · exact PC.noConfusion h2
    · rw [List.get?_set_ne _ _ (fun hh => hj hh.symm)] at hv
      exact hI.prePow j v hv hpcv
  case delSet =>
    intro j v hv hk
    by_cases hj : j = i
    · subst hj
      rw [hset] at hv
      injection hv with hv
      subst hv
      exact Bool.noConfusion hk
    · rw [List.get?_set_ne _ _ (fun hh => hj hh.symm)] at hv
      exact hI.delSet j v hv hk
  case powSet =>
    intro j v hv hk
    by_cases hj : j = i
    · subst hj
      exact hpow
    · rw [List.get?_set_ne _ _ (fun hh => hj hh.symm)] at hv
      exact hI.powSet j v hv hk
  case lockWitness =>
    intro hd hp
    have hp2 : s.power_off = false := hp
    rw [hpow] at hp2
    exact Bool.noConfusion hp2
  case delBranch =>
    intro hd
    obtain ⟨j, v, hv, hb2⟩ := hI.delBranch hd
    by_cases hj : j = i
    · subst hj
      rw [hw] at hv
      injection hv with hv
      subst hv
      rw [hpc] at hb2
      exact Branch.noConfusion hb2
    · exact ⟨j, v,
        by rw [List.get?_set_ne _ _ (fun hh => hj hh.symm)]; exact hv, hb2⟩
  case ord =>
    exact ord_snoc_nondel (by decide) hI.ord
  case cmdLen =>
    have hb := countP_set_balance (fun v => v.pc == PC.pDone) s.ws i w ⟨w.name, PC.pRelease⟩ hw
    simp only [hpc] at hb
    simp at hb
    have hl2 := hI.cmdLen
    simp only [pcCount] at hl2 ⊢
    omega
  case cmdCount =>
    intro j v hv
    by_cases hj : j = i
    · subst hj
      rw [hset] at hv
      injection hv with hv
      subst hv
      have h0 := hI.cmdCount j w hw
      rw [hpc] at h0
      rw [if_neg (by decide)] at h0
      rw [if_neg (fun hh => PC.noConfusion hh)]
      exact h0
    · rw [List.get?_set_ne _ _ (fun hh => hj hh.symm)] at hv
      exact hI.cmdCount j v hv
  case cmdShape =>
    intro c hc
    obtain ⟨v, hv, hn2, hp2⟩ := hI.cmdShape c hc
    by_cases hj : c.1 = i
    · rw [hj] at hv
      rw [hw] at hv
      injection hv with hv
      subst hv
      rw [hpc] at hp2
      exact PC.noConfusion hp2
    · exact ⟨v,
        by rw [List.get?_set_ne _ _ (fun hh => hj hh.symm)]; exact hv, hn2, hp2⟩

/-- Preservation of the pool invariant by the power-off command of line 169
(`ExecuteResourceConnectedCommand`), issued outside the lock. -/
theorem poolInv_pCmd {confs : List ResourceConf} {s : PoolState} {i : Nat}
    {w : WorkerState} (hI : PoolInv confs s) (hw : s.ws.get? i = some w)
    (hpc : w.pc = PC.pCmd) :
    PoolInv confs { s with
      cmds := s.cmds ++ [(i, w.name)]
      ws := s.ws.set i ⟨w.name, PC.pDone⟩ } := by
  have hset := get?_set_self hw (⟨w.name, PC.pDone⟩ : WorkerState)
  have hpow : s.power_off = true := hI.powSet i w hw (by rw [hpc]; rfl)
  constructor
  case len => simp [hI.len]
  case names =>
    intro j r v hc hv
    by_cases hj : j = i
    · subst hj
      rw [hset] at hv
      injection hv with hv
      subst hv
      obtain ⟨hn, hb⟩ := hI.names j r w hc hw
      rw [hpc] at hb
      exact ⟨hn, hb⟩
    · rw [List.get?_set_ne _ _ (fun hh => hj hh.symm)] at hv
      exact hI.names j r v hc hv
  case mutex =>
    intro j v hv hl
    by_cases hj : j = i
    · subst hj
      rw [hset] at hv
      injection hv with hv
      subst hv
      exact Bool.noConfusion hl
    · rw [List.get?_set_ne _ _ (fun hh => hj hh.symm)] at hv
      exact hI.mutex j v hv hl
  case tokDel =>
    have ht := hI.tokDel
    simp only [pcCount] at ht
    have hb := countP_set_balance (fun v => delPending v.pc) s.ws i w ⟨w.name, PC.pDone⟩ hw
    simp only [hpc] at hb
    have e0 : delPending PC.pCmd = false := rfl
    have e1 : delPending PC.pDone = false := rfl
    simp [e0, e1] at hb
    show countDel s.msgs
      + (s.ws.set i ⟨w.name, PC.pDone⟩).countP (fun v => delPending v.pc) = s.delete.toNat
    omega
  case tokPow =>
    have ht := hI.tokPow
    simp only [pcCount] at ht
    have hb := countP_set_balance (fun v => powPending v.pc) s.ws i w ⟨w.name, PC.pDone⟩ hw
    simp only [hpc] at hb
    have e0 : powPending PC.pCmd = false := rfl
    have e1 : powPending PC.pDone = false := rfl
    simp [e0, e1] at hb
    show countPow s.msgs
      + (s.ws.set i ⟨w.name, PC.pDone⟩).countP (fun v => powPending v.pc) = s.power_off.toNat
    omega
  case preDel =>
    intro j v hv hpcv
    by_cases hj : j = i
    · subst hj
      rw [hset] at hv
      injection hv with hv
      subst hv
      exact PC.noConfusion hpcv
    · rw [List.get?_set_ne _ _ (fun hh => hj hh.symm)] at hv
      exact hI.preDel j v hv hpcv
  case prePow =>
    intro j v hv hpcv
    by_cases hj : j = i
    · subst hj
      rw [hset] at hv
      injection hv with hv
      subst hv
      rcases hpcv with h1 | h2
      · exact PC.noConfusion h1
      · exact PC.noConfusion h2
    · rw [List.get?_set_ne _ _ (fun hh => hj hh.symm)] at hv
      exact hI.prePow j v hv hpcv
  case delSet =>
    intro j v hv hk
    by_cases hj : j = i
    · subst hj
      rw [hset] at hv
      injection hv with hv
      subst hv
      exact Bool.noConfusion hk
    · rw [List.get?_set_ne _ _ (fun hh => hj hh.symm)] at hv
      exact hI.delSet j v hv hk
  case powSet =>
    intro j v hv hk
    by_cases hj : j = i
    · subst hj
      exact hpow
    · rw [List.get?_set_ne _ _ (fun hh => hj hh.symm)] at hv
      exact hI.powSet j v hv hk
  case lockWitness =>
    intro hd hp
    have hp2 : s.power_off = false := hp
    rw [hpow] at hp2
    exact Bool.noConfusion hp2
  case delBranch =>
    intro hd
    obtain ⟨j, v, hv, hb2⟩ := hI.delBranch hd
    by_cases hj : j = i
    · subst hj
      rw [hw] at hv
      injection hv with hv
      subst hv
      rw [hpc] at hb2
      exact Branch.noConfusion hb2
    · exact ⟨j, v,
        by rw [List.get?_set_ne _ _ (fun hh => hj hh.symm)]; exact hv, hb2⟩
  case ord => exact hI.ord
  case cmdLen =>
    have hb := countP_set_balance (fun v => v.pc == PC.pDone) s.ws i w ⟨w.name, PC.pDone⟩ hw
    simp only [hpc] at hb
    simp at hb
    have hl2 := hI.cmdLen
    simp only [pcCount] at hl2 ⊢
    show (s.cmds ++ [(i, w.name)]).length = _
    rw [List.length_append]
    simp
    omega
  case cmdCount =>
    intro j v hv
    by_cases hj : j = i
    · subst hj
      rw [hset] at hv
      injection hv with hv
      subst hv
      have h0 := hI.cmdCount j w hw
      rw [hpc] at h0
      rw [if_neg (by decide)] at h0
      rw [if_pos rfl]
      rw [countP_snoc, h0]
      simp
    · rw [List.get?_set_ne _ _ (fun hh => hj hh.symm)] at hv
      have hij : (i == j) = false := beq_eq_false_iff_ne.mpr (fun hh => hj hh.symm)
      rw [countP_snoc]
      simp only [hij]
      simp
      exact hI.cmdCount j v hv
  case cmdShape =>
    intro c hc
    rcases List.mem_append.mp hc with hold | hnew
    · obtain ⟨v, hv, hn2, hp2⟩ := hI.cmdShape c hold
      by_cases hj : c.1 = i
      · rw [hj] at hv
        rw [hw] at hv
        injection hv with hv
        subst hv
        rw [hpc] at hp2
        exact PC.noConfusion hp2
      · exact ⟨v,
          by rw [List.get?_set_ne _ _ (fun hh => hj hh.symm)]; exact hv, hn2, hp2⟩
    · have hc2 : c = (i, w.name) := List.mem_singleton.mp hnew
      subst hc2
      exact ⟨⟨w.name, PC.pDone⟩, hset, rfl, rfl⟩

/-- The initial program point of a worker is one of the three branch entry
points. -/
theorem initPC_cases (r : ResourceConf) :
    initPC r = PC.dCheck ∨ initPC r = PC.pCheck ∨ initPC r = PC.nDone := by
  unfold initPC
  split
  · exact Or.inl rfl
  · split
    · exact Or.inr (Or.inl rfl)
    · exact Or.inr (Or.inr rfl)

/-- The initial program point lies in the branch selected by the custom
parameters. -/
theorem pcBranch_initPC (r : ResourceConf) : pcBranch (initPC r) = branchOf r := by
  unfold initPC branchOf
  split
  · rfl
  · split
    · rfl
    · rfl

/-- Initial program points are outside the lock, non-pending, flag-unaware
and not terminal power-off points. -/
theorem initPC_not (r : ResourceConf) :
    delPending (initPC r) = false ∧ powPending (initPC r) = false ∧
    inLock (initPC r) = false ∧ delKnown (initPC r) = false ∧
    powKnown (initPC r) = false ∧ initPC r ≠ PC.dSetDelete ∧
    initPC r ≠ PC.dSetPower ∧ initPC r ≠ PC.pSetPower ∧
    initPC r ≠ PC.pDone := by
  rcases initPC_cases r with h | h | h <;> rw [h] <;>
    exact ⟨rfl, rfl, rfl, rfl, rfl, by decide, by decide, by decide, by decide⟩

/-- The pool invariant holds in the initial state. -/
theorem poolInv_init (confs : List ResourceConf) :
    PoolInv (confs.filter fun r => r.VmDetailsPresent) (initState confs) := by
  have hz : ∀ (p : WorkerState → Bool),
      (∀ r : ResourceConf, p ⟨r.Name, initPC r⟩ = false) →
      ((confs.filter fun r => r.VmDetailsPresent).map
        (fun r => (⟨r.Name, initPC r⟩ : WorkerState))).countP p = 0 := by
    intro p hp
    rw [List.countP_eq_zero]
    intro w hwm
    obtain ⟨r, hr, hre⟩ := List.mem_map.mp hwm
    rw [← hre, hp r]
    exact Bool.noConfusion
  have hget : ∀ i w, (initState confs).ws.get? i = some w →
      ∃ r, (confs.filter fun r => r.VmDetailsPresent).get? i = some r ∧
        w = ⟨r.Name, initPC r⟩ := by
    intro i w hv
    simp only [initState] at hv
    rw [List.get?_map] at hv
    cases hr : (confs.filter fun r => r.VmDetailsPresent).get? i with
    | none => rw [hr] at hv; exact Option.noConfusion hv
    | some r =>
      rw [hr] at hv
      injection hv with hv
      exact ⟨r, rfl, hv.symm⟩
  constructor
  case len => simp [initState]
  case names =>
    intro i r w hc hv
    obtain ⟨r2, hr2, hre⟩ := hget i w hv
    rw [hc] at hr2
    injection hr2 with hr2
    subst hr2
    subst hre
    exact ⟨rfl, pcBranch_initPC r⟩
  case mutex =>
    intro i w hv hl
    obtain ⟨r, _, hre⟩ := hget i w hv
    subst hre
    rw [(initPC_not r).2.2.1] at hl
    exact Bool.noConfusion hl
  case tokDel =>
    show countDel [] + pcCount delPending (initState confs) = Bool.toNat false
    have h0 : pcCount delPending (initState confs) = 0 :=
      hz _ (fun r => (initPC_not r).1)
    rw [h0]
    rfl
  case tokPow =>
    show countPow [] + pcCount powPending (initState confs) = Bool.toNat false
    have h0 : pcCount powPending (initState confs) = 0 :=
      hz _ (fun r => (initPC_not r).2.1)
    rw [h0]
    rfl
  case preDel =>
    intro i w hv hpc
    rfl
  case prePow =>
    intro i w hv hpc
    rfl
  case delSet =>
    intro i w hv hk
    obtain ⟨r, _, hre⟩ := hget i w hv
    subst hre
    rw [(initPC_not r).2.2.2.1] at hk
    exact Bool.noConfusion hk
  case powSet =>
    intro i w hv hk
    obtain ⟨r, _, hre⟩ := hget i w hv
    subst hre
    rw [(initPC_not r).2.2.2.2.1] at hk
    exact Bool.noConfusion hk
  case lockWitness =>
    intro hd
    exact Bool.noConfusion hd
  case delBranch =>
    intro hd
    exact Bool.noConfusion hd
  case ord =>
    intro n hn
    simp [initState] at hn
  case cmdLen =>
    show ([] : List (Nat × String)).length = pcCount (fun pc => pc == PC.pDone) (initState confs)
    have h0 : pcCount (fun pc => pc == PC.pDone) (initState confs) = 0 := by
      apply hz
      intro r
      have := (initPC_not r).2.2.2.2.2.2.2.2
      simp [this]
    rw [h0]
    rfl
  case cmdCount =>
    intro i w hv
    obtain ⟨r, _, hre⟩ := hget i w hv
    subst hre
    rw [if_neg]
    · rfl
    · exact (initPC_not r).2.2.2.2.2.2.2.2
  case cmdShape =>
    intro c hc
    simp [initState] at hc

/-- A Boolean that is not true is false. -/
theorem bool_eq_false {b : Bool} (h : ¬ b = true) : b = false := by
  cases b
  · rfl
  · exact absurd rfl h

/-- The pool invariant is preserved by every step of every worker. -/
theorem poolInv_step {confs : List ResourceConf} {s s' : PoolState} {i : Nat}
    (hI : PoolInv confs s) (h : workerStep s i = some s') : PoolInv confs s' := by
  cases hw : s.ws.get? i with
  | none =>
    unfold workerStep at h
    rw [hw] at h
    exact Option.noConfusion h
  | some w =>
    have h2 : stepOfWorker s i w.name w.pc = some s' := by
      rw [← h]
      unfold workerStep
      rw [hw]
    clear h
    cases hpc : w.pc <;> rw [hpc] at h2 <;> simp only [stepOfWorker] at h2
    case dCheck =>
      injection h2 with h2
      subst h2
      by_cases hd : s.delete = true
      · rw [if_pos hd]
        exact poolInv_update_pc hI hw PC.dDone (by rw [hpc]; rfl) (by rw [hpc]; rfl)
          (by rw [hpc]; rfl) (by rw [hpc]; rfl) (by rw [hpc]; rfl)
          (fun hh => PC.noConfusion hh)
          (fun hh => hh.elim (fun h1 => PC.noConfusion h1) (fun h1 => PC.noConfusion h1))
          (fun _ => hd) (fun hh => Bool.noConfusion hh)
          (fun hh => by rw [hpc] at hh
                        exact hh.elim (fun h1 => PC.noConfusion h1) (fun h1 => PC.noConfusion h1))
      · rw [if_neg hd]
        exact poolInv_update_pc hI hw PC.dAcquire (by rw [hpc]; rfl) (by rw [hpc]; rfl)
          (by rw [hpc]; rfl) (by rw [hpc]; rfl) (by rw [hpc]; rfl)
          (fun hh => PC.noConfusion hh)
          (fun hh => hh.elim (fun h1 => PC.noConfusion h1) (fun h1 => PC.noConfusion h1))
          (fun hh => Bool.noConfusion hh) (fun hh => Bool.noConfusion hh)
          (fun hh => by rw [hpc] at hh
                        exact hh.elim (fun h1 => PC.noConfusion h1) (fun h1 => PC.noConfusion h1))
    case dAcquire =>
      split at h2
      · injection h2 with h2
        subst h2
        rename_i hfree
        exact poolInv_acquire hI hw hfree PC.dRecheck (by rw [hpc]; rfl) rfl
          (by rw [hpc]; rfl) rfl (by rw [hpc]; rfl) (by decide) (by rw [hpc]; decide)
          (by decide) (by decide) (by decide) rfl rfl
      · exact Option.noConfusion h2
    case dRecheck =>
      injection h2 with h2
      subst h2
      by_cases hd : s.delete = true
      · rw [if_pos hd]
        exact poolInv_update_pc hI hw PC.dRelease (by rw [hpc]; rfl) (by rw [hpc]; rfl)
          (by rw [hpc]; rfl) (by rw [hpc]; rfl) (by rw [hpc]; rfl)
          (fun hh => PC.noConfusion hh)
          (fun hh => hh.elim (fun h1 => PC.noConfusion h1) (fun h1 => PC.noConfusion h1))
          (fun _ => hd) (fun hh => Bool.noConfusion hh)
          (fun hh => by rw [hpc] at hh
                        exact hh.elim (fun h1 => PC.noConfusion h1) (fun h1 => PC.noConfusion h1))
      · rw [if_neg hd]
        exact poolInv_update_pc hI hw PC.dSetDelete (by rw [hpc]; rfl) (by rw [hpc]; rfl)
          (by rw [hpc]; rfl) (by rw [hpc]; rfl) (by rw [hpc]; rfl)
          (fun _ => bool_eq_false hd)
          (fun hh => hh.elim (fun h1 => PC.noConfusion h1) (fun h1 => PC.noConfusion h1))
          (fun hh => Bool.noConfusion hh) (fun hh => Bool.noConfusion hh)
          (fun hh => by rw [hpc] at hh
                        exact hh.elim (fun h1 => PC.noConfusion h1) (fun h1 => PC.noConfusion h1))
    case dSetDelete =>
      injection h2 with h2
      subst h2
      exact poolInv_dSetDelete hI hw hpc
    case dCheckPower =>
      injection h2 with h2
      subst h2
      by_cases hp : s.power_off = true
      · rw [if_pos hp]
        exact poolInv_update_pc hI hw PC.dEmitDeleted (by rw [hpc]; rfl) (by rw [hpc]; rfl)
          (by rw [hpc]; rfl) (by rw [hpc]; rfl) (by rw [hpc]; rfl)
          (fun hh => PC.noConfusion hh)
          (fun hh => hh.elim (fun h1 => PC.noConfusion h1) (fun h1 => PC.noConfusion h1))
          (fun _ => hI.delSet i w hw (by rw [hpc]; rfl))
          (fun _ => hp)
          (fun _ => Or.inr (Or.inr (Or.inl hp)))
      · rw [if_neg hp]
        exact poolInv_update_pc hI hw PC.dSetPower (by rw [hpc]; rfl) (by rw [hpc]; rfl)
          (by rw [hpc]; rfl) (by rw [hpc]; rfl) (by rw [hpc]; rfl)
          (fun hh => PC.noConfusion hh)
          (fun _ => bool_eq_false hp)
          (fun _ => hI.delSet i w hw (by rw [hpc]; rfl))
          (fun hh => Bool.noConfusion hh)
          (fun _ => Or.inr (Or.inl rfl))
    case dSetPower =>
      injection h2 with h2
      subst h2
      exact poolInv_dSetPower hI hw hpc
    case dEmitBoth =>
      injection h2 with h2
      subst h2
      exact poolInv_dEmitBoth hI hw hpc
    case dEmitDeleted =>
      injection h2 with h2
      subst h2
      exact poolInv_dEmitDeleted hI hw hpc
    case dRelease =>
      injection h2 with h2
      subst h2
      exact poolInv_release hI hw (by rw [hpc]; rfl) PC.dDone (by rw [hpc]; rfl) rfl rfl
        (by rw [hpc]; rfl) rfl (by rw [hpc]; rfl) (by decide) (by rw [hpc]; decide)
        (by decide) (by decide) (by decide)
        (fun _ => hI.delSet i w hw (by rw [hpc]; rfl))
        (fun hh => Bool.noConfusion hh)
        (by rw [hpc]; decide) (by rw [hpc]; decide)
    case dDone => exact Option.noConfusion h2
    case pCheck =>
      injection h2 with h2
      subst h2
      by_cases hp : s.power_off = true
      · rw [if_pos hp]
        exact poolInv_update_pc hI hw PC.pCmd (by rw [hpc]; rfl) (by rw [hpc]; rfl)
          (by rw [hpc]; rfl) (by rw [hpc]; rfl) (by rw [hpc]; rfl)
          (fun hh => PC.noConfusion hh)
          (fun hh => hh.elim (fun h1 => PC.noConfusion h1) (fun h1 => PC.noConfusion h1))
          (fun hh => Bool.noConfusion hh) (fun _ => hp)
          (fun hh => by rw [hpc] at hh
                        exact hh.elim (fun h1 => PC.noConfusion h1) (fun h1 => PC.noConfusion h1))
      · rw [if_neg hp]
        exact poolInv_update_pc hI hw PC.pAcquire (by rw [hpc]; rfl) (by rw [hpc]; rfl)
          (by rw [hpc]; rfl) (by rw [hpc]; rfl) (by rw [hpc]; rfl)
          (fun hh => PC.noConfusion hh)
          (fun hh => hh.elim (fun h1 => PC.noConfusion h1) (fun h1 => PC.noConfusion h1))
          (fun hh => Bool.noConfusion hh) (fun hh => Bool.noConfusion hh)
          (fun hh => by rw [hpc] at hh
                        exact hh.elim (fun h1 => PC.noConfusion h1) (fun h1 => PC.noConfusion h1))
    case pAcquire =>
      split at h2
      · injection h2 with h2
        subst h2
        rename_i hfree
        exact poolInv_acquire hI hw hfree PC.pRecheck (by rw [hpc]; rfl) rfl
          (by rw [hpc]; rfl) rfl (by rw [hpc]; rfl) (by decide) (by rw [hpc]; decide)
          (by decide) (by decide) (by decide) rfl rfl
      · exact Option.noConfusion h2
    case pRecheck =>
      injection h2 with h2
      subst h2
      by_cases hp : s.power_off = true
      · rw [if_pos hp]
        exact poolInv_update_pc hI hw PC.pRelease (by rw [hpc]; rfl) (by rw [hpc]; rfl)
          (by rw [hpc]; rfl) (by rw [hpc]; rfl) (by rw [hpc]; rfl)
          (fun hh => PC.noConfusion hh)
          (fun hh => hh.elim (fun h1 => PC.noConfusion h1) (fun h1 => PC.noConfusion h1))
          (fun hh => Bool.noConfusion hh) (fun _ => hp)
          (fun hh => by rw [hpc] at hh
                        exact hh.elim (fun h1 => PC.noConfusion h1) (fun h1 => PC.noConfusion h1))
      · rw [if_neg hp]
        exact poolInv_update_pc hI hw PC.pSetPower (by rw [hpc]; rfl) (by rw [hpc]; rfl)
          (by rw [hpc]; rfl) (by rw [hpc]; rfl) (by rw [hpc]; rfl)
          (fun hh => PC.noConfusion hh)
          (fun _ => bool_eq_false hp)
          (fun hh => Bool.noConfusion hh) (fun hh => Bool.noConfusion hh)
          (fun hh => by rw [hpc] at hh
                        exact hh.elim (fun h1 => PC.noConfusion h1) (fun h1 => PC.noConfusion h1))
    case pSetPower =>
      injection h2 with h2
      subst h2
      exact poolInv_pSetPower hI hw hpc
    case pEmit =>
      injection h2 with h2
      subst h2
      exact poolInv_pEmit hI hw hpc
    case pRelease =>
      injection h2 with h2
      subst h2
      exact poolInv_release hI hw (by rw [hpc]; rfl) PC.pCmd (by rw [hpc]; rfl) rfl rfl
        (by rw [hpc]; rfl) rfl (by rw [hpc]; rfl) (by decide) (by rw [hpc]; decide)
        (by decide) (by decide) (by decide)
        (fun hh => Bool.noConfusion hh)
        (fun _ => hI.powSet i w hw (by rw [hpc]; rfl))
        (by rw [hpc]; decide) (by rw [hpc]; decide)
    case pCmd =>
      injection h2 with h2
      subst h2
      exact poolInv_pCmd hI hw hpc
    case pDone => exact Option.noConfusion h2
    case nDone => exact Option.noConfusion h2

/-- The pool invariant holds in every reachable state. -/
theorem poolInv_reaches {confs : List ResourceConf} {s : PoolState}
    (h : Reaches (initState confs) s) :
    PoolInv (confs.filter fun r => r.VmDetailsPresent) s := by
  induction h with
  | refl => exact poolInv_init confs
  | step i hr hstep ih => exact poolInv_step ih hstep

/-- Power-off-class messages split into the two concrete announcements. -/
theorem countPow_split (l : List OutMsg) :
    countPow l = l.countP (fun m => m == OutMsg.poweredOffAndDeleted)
      + l.countP (fun m => m == OutMsg.poweringOff) := by
  induction l with
  | nil => rfl
  | cons m t ih =>
    simp only [countPow, List.countP_cons] at ih ⊢
    cases m <;> simp [isPowClass] <;> omega

/-- The combined announcement is a deleted-class message. -/
theorem countP_pOAD_le (l : List OutMsg) :
    l.countP (fun m => m == OutMsg.poweredOffAndDeleted) ≤ countDel l := by
  induction l with
  | nil => exact Nat.le_refl 0
  | cons m t ih =>
    simp only [countDel, List.countP_cons] at ih ⊢
    cases m <;> simp [isDelClass] <;> omega

/-- When no `GetResourceDetails` call raises, the worker phase lets no
exception escape: every per-resource failure is caught inside the worker. -/
theorem runWorkers_escaped_none (rid : String) (rs : List ResourceSetup)
    (st : MsgStatus) (h : ∀ r ∈ rs, r.detailsErr = none) :
    (runWorkers rid rs st).escaped = none := by
  induction rs generalizing st with
  | nil => rfl
  | cons r rest ih =>
    have hr : r.detailsErr = none := h r (List.mem_cons_self r rest)
    have hrest : ∀ r2 ∈ rest, r2.detailsErr = none :=
      fun r2 h2 => h r2 (List.mem_cons_of_mem r h2)
    unfold runWorkers
    split
    · rename_i e he
      rw [hr] at he
      exact absurd he (by simp)
    · split
      · exact ih _ hrest
      · exact ih st hrest

/-- `_power_off_and_delete_all_vm_resources` lets an exception escape only
from `GetResourceDetails` or from an unstructured bulk-remove failure. -/
theorem phase_escaped_none (rid : String) (rs : List ResourceSetup)
    (ro : Option (Failure Nat))
    (hesc : (runWorkers rid rs ⟨false, false⟩).escaped = none)
    (hro : ∀ m, ro ≠ some (.exn m)) :
    (power_off_and_delete_all_vm_resources rid rs ro).escaped = none := by
  unfold power_off_and_delete_all_vm_resources
  generalize hW : runWorkers rid rs ⟨false, false⟩ = W
  rw [hW] at hesc
  obtain ⟨st2, logs2, msgs2, cmds2, results2, esc2⟩ := W
  simp only at hesc
  subst hesc
  simp only []
  by_cases hc : List.filterMap id results2 = []
  · rw [if_pos hc]
  · rw [if_neg hc]
    cases ro with
    | none => rfl
    | some f =>
      cases f with
      | api c m =>
        simp only []
        by_cases h153 : c = 153
        · rw [if_pos h153]
        · rw [if_neg h153]
      | exn m => exact absurd rfl (hro m)

/-- When the phase-level calls succeed (resource-details fetches, bulk
remove not raising an unstructured exception, connectivity cleanup), the
whole `execute` run finishes normally and announces completion, no matter
how the disconnect call or any per-resource call behaved. -/
theorem executeModel_ok (rid : String) (env : ExecEnv)
    (hdet : ∀ r ∈ env.resources, r.detailsErr = none)
    (hrem : ∀ m, env.removeOutcome ≠ some (.exn m))
    (hcl : env.cleanupErr = none) :
    (executeModel rid env).escaped = none ∧
    ∃ l, (executeModel rid env).msgs = l ++ [OutMsg.teardownFinished] := by
  have hesc := runWorkers_escaped_none rid env.resources ⟨false, false⟩ hdet
  have hA := phase_escaped_none rid env.resources env.removeOutcome hesc hrem
  unfold executeModel
  generalize hG : power_off_and_delete_all_vm_resources rid env.resources env.removeOutcome = A
  rw [hG] at hA
  obtain ⟨logsA, msgsA, rcA, cmdsA, escA⟩ := A
  simp only at hA
  subst hA
  rw [hcl]
  simp only []
  exact ⟨trivial, _, rfl⟩

/-- C9: for every reservation whose connector collection contains no
connector in state Connected or PartiallyConnected,
`_disconnect_all_routes_in_reservation` issues zero disconnect calls, logs
the no-op message and returns without error, whatever the would-be call
outcome. -/
theorem C9_disconnect_noop (rid : String) (connectors : List Connector)
    (outcome : Option (Failure String))
    (h : ∀ e ∈ connectors, e.State ≠ "Connected" ∧ e.State ≠ "PartiallyConnected") :
    disconnect_all_routes_in_reservation rid connectors outcome
      = { logs := [.noRoutes rid], msgs := [], calls := [] } := by
  have he : routeEndpoints connectors = [] := by
    induction connectors with
    | nil => rfl
    | cons e rest ih =>
      have h1 := h e (List.mem_cons_self e rest)
      rw [routeEndpoints, if_neg (fun hcond => hcond.1.elim h1.1 h1.2)]
      exact ih (fun e2 hm => h e2 (List.mem_cons_of_mem e hm))
  simp [disconnect_all_routes_in_reservation, he]

/-- Witness for C9 at a concrete reservation with one disconnected
connector. -/
theorem C9_disconnect_noop_witness :
    disconnect_all_routes_in_reservation "r" [⟨"Disconnected", "t", "s"⟩] none
      = { logs := [.noRoutes "r"], msgs := [], calls := [] } :=
  C9_disconnect_noop "r" [⟨"Disconnected", "t", "s"⟩] none (by decide)

/-- C5: when the bulk disconnect call fails, the structured code "123"
produces no error log and no error message, any other failure produces
exactly one error log and one reservation-output error message, and in all
cases the function returns normally so that a full run with benign
phase-level calls still finishes. -/
theorem C5_disconnect_error_paths (rid : String) (connectors : List Connector)
    (f : Failure String) (hne : routeEndpoints connectors ≠ []) :
    ((disconnect_all_routes_in_reservation rid connectors (some f)).logs.countP
        LogEntry.isError = if benign123 f then 0 else 1) ∧
    ((disconnect_all_routes_in_reservation rid connectors (some f)).msgs.countP
        isDisconnectErrorMsg = if benign123 f then 0 else 1) ∧
    (executeModel rid ⟨connectors, some f, [], none, none⟩).escaped = none := by
  refine ⟨?_, ?_, rfl⟩
  · cases f with
    | api c m =>
      by_cases hc : c = "123"
      · subst hc
        simp [disconnect_all_routes_in_reservation, hne, benign123,
          List.countP_cons, LogEntry.isError]
      · simp [disconnect_all_routes_in_reservation, hne, benign123, hc,
          List.countP_cons, LogEntry.isError]
    | exn m =>
      simp [disconnect_all_routes_in_reservation, hne, benign123,
        List.countP_cons, LogEntry.isError]
  · cases f with
    | api c m =>
      by_cases hc : c = "123"
      · subst hc
        simp [disconnect_all_routes_in_reservation, hne, benign123,
          List.countP_cons, isDisconnectErrorMsg]
      · simp [disconnect_all_routes_in_reservation, hne, benign123, hc,
          List.countP_cons, isDisconnectErrorMsg]
    | exn m =>
      simp [disconnect_all_routes_in_reservation, hne, benign123,
        List.countP_cons, isDisconnectErrorMsg]

/-- Witness for C5 at a concrete connected route and a structured error
with a non-benign code. -/
theorem C5_disconnect_error_paths_witness :
    ((disconnect_all_routes_in_reservation "r" [⟨"Connected", "t", "s"⟩]
        (some (.api "500" "oops"))).logs.countP LogEntry.isError
      = if benign123 (.api "500" "oops") then 0 else 1) ∧
    ((disconnect_all_routes_in_reservation "r" [⟨"Connected", "t", "s"⟩]
        (some (.api "500" "oops"))).msgs.countP isDisconnectErrorMsg
      = if benign123 (.api "500" "oops") then 0 else 1) ∧
    (executeModel "r" ⟨[⟨"Connected", "t", "s"⟩], some (.api "500" "oops"),
        [], none, none⟩).escaped = none :=
  C5_disconnect_error_paths "r" [⟨"Connected", "t", "s"⟩] (.api "500" "oops")
    (by decide)

/-- C2 fails as stated: on a run with one deletion candidate where the
bulk remove call raises a structured error with code 999 (≠ 153), the
call is issued, the error is caught by the `except CloudShellAPIError`
handler and silently swallowed, and nothing propagates to the caller. -/
theorem C2_counterexample :
    (power_off_and_delete_all_vm_resources "r"
        [⟨⟨"a", true, none, none⟩, none, ⟨none, none⟩⟩]
        (some (.api 999 "boom"))).escaped = none ∧
    (999 : Nat) ≠ 153 ∧
    (power_off_and_delete_all_vm_resources "r"
        [⟨⟨"a", true, none, none⟩, none, ⟨none, none⟩⟩]
        (some (.api 999 "boom"))).removeCalls = [["a"]] :=
  ⟨rfl, by decide, rfl⟩

/-- C2 (amended): every structured error of the bulk remove call is
caught; it is logged and reported if and only if its code equals 153,
every other structured code is silently swallowed, and only an
unstructured exception propagates out of the phase. -/
theorem C2_remove_error_handling (rid : String) (rs : List ResourceSetup)
    (c : Nat) (m : String)
    (hesc : (runWorkers rid rs ⟨false, false⟩).escaped = none)
    (hcands : (runWorkers rid rs ⟨false, false⟩).results.filterMap id ≠ []) :
    (power_off_and_delete_all_vm_resources rid rs (some (.api c m))).escaped = none ∧
    ((power_off_and_delete_all_vm_resources rid rs (some (.api c m))).logs
      = if c = 153
        then (runWorkers rid rs ⟨false, false⟩).logs ++ [.removeErrorLog m]
        else (runWorkers rid rs ⟨false, false⟩).logs) ∧
    ((power_off_and_delete_all_vm_resources rid rs (some (.api c m))).msgs
      = if c = 153
        then (runWorkers rid rs ⟨false, false⟩).msgs ++ [.removeError m]
        else (runWorkers rid rs ⟨false, false⟩).msgs) ∧
    (power_off_and_delete_all_vm_resources rid rs (some (.exn m))).escaped = some m := by
  unfold power_off_and_delete_all_vm_resources
  generalize hW : runWorkers rid rs ⟨false, false⟩ = W
  rw [hW] at hesc hcands
  obtain ⟨st2, logs2, msgs2, cmds2, results2, esc2⟩ := W
  simp only at hesc hcands
  subst hesc
  simp only []
  simp only [if_neg hcands]
  by_cases h153 : c = 153
  · simp only [if_pos h153]
    refine ⟨?_, ?_, ?_, ?_⟩ <;> trivial
  · simp only [if_neg h153]
    refine ⟨?_, ?_, ?_, ?_⟩ <;> trivial

/-- Witness for the amended C2 at a concrete run with one deletion
candidate and a structured error with code 999. -/
theorem C2_remove_error_handling_witness :
    (power_off_and_delete_all_vm_resources "r"
        [⟨⟨"a", true, none, none⟩, none, ⟨none, none⟩⟩]
        (some (.api 999 "boom"))).escaped = none ∧
    ((power_off_and_delete_all_vm_resources "r"
        [⟨⟨"a", true, none, none⟩, none, ⟨none, none⟩⟩]
        (some (.api 999 "boom"))).logs
      = if (999 : Nat) = 153
        then (runWorkers "r" [⟨⟨"a", true, none, none⟩, none, ⟨none, none⟩⟩]
          ⟨false, false⟩).logs ++ [.removeErrorLog "boom"]
        else (runWorkers "r" [⟨⟨"a", true, none, none⟩, none, ⟨none, none⟩⟩]
          ⟨false, false⟩).logs) ∧
    ((power_off_and_delete_all_vm_resources "r"
        [⟨⟨"a", true, none, none⟩, none, ⟨none, none⟩⟩]
        (some (.api 999 "boom"))).msgs
      = if (999 : Nat) = 153
        then (runWorkers "r" [⟨⟨"a", true, none, none⟩, none, ⟨none, none⟩⟩]
          ⟨false, false⟩).msgs ++ [.removeError "boom"]
        else (runWorkers "r" [⟨⟨"a", true, none, none⟩, none, ⟨none, none⟩⟩]
          ⟨false, false⟩).msgs) ∧
    (power_off_and_delete_all_vm_resources "r"
        [⟨⟨"a", true, none, none⟩, none, ⟨none, none⟩⟩]
        (some (.exn "boom"))).escaped = some "boom" :=
  C2_remove_error_handling "r" [⟨⟨"a", true, none, none⟩, none, ⟨none, none⟩⟩]
    999 "boom" rfl (by decide)

/-- C3 fails as stated: a failure of the connectivity-cleanup call is not
caught anywhere, it propagates out of `execute`, and the final completion
announcement is never written. -/
theorem C3_counterexample :
    (executeModel "r" ⟨[], none, [], none, some "boom"⟩).escaped = some "boom" ∧
    OutMsg.teardownFinished ∉ (executeModel "r" ⟨[], none, [], none, some "boom"⟩).msgs :=
  ⟨rfl, by decide⟩

/-- C3 (amended): a failure inside the disconnect-routes phase or inside
any per-resource decision is caught and every later phase, including the
final completion announcement, still runs; but a failure of a
`GetResourceDetails` call, an unstructured failure of the bulk remove
call, or a failure of the connectivity cleanup propagates out of
`execute` and aborts the remaining steps. -/
theorem C3_phase_isolation (rid : String) (env : ExecEnv)
    (hdet : ∀ r ∈ env.resources, r.detailsErr = none)
    (hrem : ∀ m, env.removeOutcome ≠ some (.exn m))
    (hcl : env.cleanupErr = none) :
    (executeModel rid env).escaped = none ∧
    ∃ l, (executeModel rid env).msgs = l ++ [OutMsg.teardownFinished] :=
  executeModel_ok rid env hdet hrem hcl

/-- Witness for the amended C3 at a run whose disconnect call raises an
unstructured exception, whose only worker's message write raises, and
whose bulk remove call fails with a structured error of code 999. -/
theorem C3_phase_isolation_witness :
    (executeModel "r" ⟨[⟨"Connected", "t", "s"⟩], some (.exn "neterr"),
        [⟨⟨"a", true, none, none⟩, none, ⟨some "writefail", none⟩⟩],
        some (.api 999 "removefail"), none⟩).escaped = none ∧
    ∃ l, (executeModel "r" ⟨[⟨"Connected", "t", "s"⟩], some (.exn "neterr"),
        [⟨⟨"a", true, none, none⟩, none, ⟨some "writefail", none⟩⟩],
        some (.api 999 "removefail"), none⟩).msgs
      = l ++ [OutMsg.teardownFinished] :=
  C3_phase_isolation "r" ⟨[⟨"Connected", "t", "s"⟩], some (.exn "neterr"),
      [⟨⟨"a", true, none, none⟩, none, ⟨some "writefail", none⟩⟩],
      some (.api 999 "removefail"), none⟩
    (by decide) (fun m h => Failure.noConfusion (Option.some.inj h)) rfl

/-- C8: every exception raised inside the per-resource decision is caught
by the worker, an error naming the resource and the error is logged, the
worker returns `None`, and, the per-resource work being caught, a run
whose phase-level calls succeed always finishes normally. -/
theorem C8_worker_exception_isolated (rid : String) (r : ResourceConf)
    (env : WorkerEnv) (st : MsgStatus) (eff : WEff) (e : String)
    (hraise : worker_body rid r env st = .error (eff, e)) :
    (power_off_or_delete_deployed_app rid r env st).2 = none ∧
    (power_off_or_delete_deployed_app rid r env st).1.logs
      = eff.logs ++ [.errorPowerOffDelete r.Name rid e] ∧
    ∀ (env2 : ExecEnv), (∀ r2 ∈ env2.resources, r2.detailsErr = none) →
      (∀ m, env2.removeOutcome ≠ some (.exn m)) → env2.cleanupErr = none →
      (executeModel rid env2).escaped = none := by
  refine ⟨?_, ?_, fun env2 h1 h2 h3 => (executeModel_ok rid env2 h1 h2 h3).1⟩
  · unfold power_off_or_delete_deployed_app
    rw [hraise]
  · unfold power_off_or_delete_deployed_app
    rw [hraise]

/-- Witness for C8 at a power-off-eligible resource whose power-off
command raises. -/
theorem C8_worker_exception_isolated_witness :
    (power_off_or_delete_deployed_app "r" ⟨"b", true, some ⟨"false"⟩, none⟩
        ⟨none, some "cmdfail"⟩ ⟨true, false⟩).2 = none ∧
    (power_off_or_delete_deployed_app "r" ⟨"b", true, some ⟨"false"⟩, none⟩
        ⟨none, some "cmdfail"⟩ ⟨true, false⟩).1.logs
      = [LogEntry.powerOffApp "b" "r"] ++ [.errorPowerOffDelete "b" "r" "cmdfail"] ∧
    ∀ (env2 : ExecEnv), (∀ r2 ∈ env2.resources, r2.detailsErr = none) →
      (∀ m, env2.removeOutcome ≠ some (.exn m)) → env2.cleanupErr = none →
      (executeModel "r" env2).escaped = none :=
  C8_worker_exception_isolated "r" ⟨"b", true, some ⟨"false"⟩, none⟩
    ⟨none, some "cmdfail"⟩ ⟨true, false⟩
    ⟨⟨true, false⟩, [LogEntry.powerOffApp "b" "r"], [], []⟩ "cmdfail" rfl

/-- C1: in every state reachable by any interleaving of any number of pool
workers, at most one power-off-class message (`Apps are being powered off
and deleted...` or `Apps are powering off...`) and at most one
deleted-class message (`Apps are being powered off and deleted...` or
`Apps are being deleted...`) have been written to the reservation output. -/
theorem C1_at_most_one_announcement (confs : List ResourceConf) (s : PoolState)
    (h : Reaches (initState confs) s) :
    countPow s.msgs ≤ 1 ∧ countDel s.msgs ≤ 1 := by
  have hI := poolInv_reaches h
  have hp : s.power_off.toNat ≤ 1 := by cases s.power_off <;> simp
  have hd : s.delete.toNat ≤ 1 := by cases s.delete <;> simp
  have ht1 := hI.tokPow
  have ht2 := hI.tokDel
  omega

/-- Witness for C1 on a concrete seven-step run of one delete-branch
worker that has just written its announcement. -/
theorem C1_at_most_one_announcement_witness :
    countPow (⟨true, true, some 0, [OutMsg.poweredOffAndDeleted], [],
      [⟨"a", PC.dRelease⟩]⟩ : PoolState).msgs ≤ 1 ∧
    countDel (⟨true, true, some 0, [OutMsg.poweredOffAndDeleted], [],
      [⟨"a", PC.dRelease⟩]⟩ : PoolState).msgs ≤ 1 :=
  C1_at_most_one_announcement [⟨"a", true, none, none⟩] _
    (Reaches.step 0 (Reaches.step 0 (Reaches.step 0 (Reaches.step 0
      (Reaches.step 0 (Reaches.step 0 (Reaches.step 0
        (Reaches.refl (initState [⟨"a", true, none, none⟩]))
        rfl) rfl) rfl) rfl) rfl) rfl) rfl)

/-- C10: in every reachable pool state, the `Apps are being deleted...`
message appears only strictly after a power-off-class message; whenever no
worker holds the lock, a set delete flag implies a set power-off flag; and
the two power-off-class announcements never both occur in one run. -/
theorem C10_delete_message_after_power (confs : List ResourceConf) (s : PoolState)
    (h : Reaches (initState confs) s) :
    (∀ n, s.msgs.get? n = some OutMsg.beingDeleted →
      ∃ k, k < n ∧ ∃ m, s.msgs.get? k = some m ∧ isPowClass m = true) ∧
    (s.holder = none → s.delete = true → s.power_off = true) ∧
    ¬(OutMsg.poweredOffAndDeleted ∈ s.msgs ∧ OutMsg.poweringOff ∈ s.msgs) := by
  have hI := poolInv_reaches h
  refine ⟨hI.ord, ?_, ?_⟩
  · intro hhol hd
    cases hp : s.power_off
    · obtain ⟨i, w, hh, _, _⟩ := hI.lockWitness hd hp
      rw [hhol] at hh
      exact Option.noConfusion hh
    · rfl
  · rintro ⟨h1, h2⟩
    have c1 : 0 < s.msgs.countP (fun m => m == OutMsg.poweredOffAndDeleted) :=
      List.countP_pos.mpr ⟨_, h1, by simp⟩
    have c2 : 0 < s.msgs.countP (fun m => m == OutMsg.poweringOff) :=
      List.countP_pos.mpr ⟨_, h2, by simp⟩
    have hs := countPow_split s.msgs
    have ht := hI.tokPow
    have hb : s.power_off.toNat ≤ 1 := by cases s.power_off <;> simp
    omega

/-- Witness for C10 on the same concrete seven-step run. -/
theorem C10_delete_message_after_power_witness :
    (∀ n, (⟨true, true, some 0, [OutMsg.poweredOffAndDeleted], [],
        [⟨"a", PC.dRelease⟩]⟩ : PoolState).msgs.get? n = some OutMsg.beingDeleted →
      ∃ k, k < n ∧ ∃ m, (⟨true, true, some 0, [OutMsg.poweredOffAndDeleted], [],
        [⟨"a", PC.dRelease⟩]⟩ : PoolState).msgs.get? k = some m ∧ isPowClass m = true) ∧
    ((⟨true, true, some 0, [OutMsg.poweredOffAndDeleted], [],
        [⟨"a", PC.dRelease⟩]⟩ : PoolState).holder = none →
      (⟨true, true, some 0, [OutMsg.poweredOffAndDeleted], [],
        [⟨"a", PC.dRelease⟩]⟩ : PoolState).delete = true →
      (⟨true, true, some 0, [OutMsg.poweredOffAndDeleted], [],
        [⟨"a", PC.dRelease⟩]⟩ : PoolState).power_off = true) ∧
    ¬(OutMsg.poweredOffAndDeleted ∈ (⟨true, true, some 0,
        [OutMsg.poweredOffAndDeleted], [], [⟨"a", PC.dRelease⟩]⟩ : PoolState).msgs ∧
      OutMsg.poweringOff ∈ (⟨true, true, some 0, [OutMsg.poweredOffAndDeleted],
        [], [⟨"a", PC.dRelease⟩]⟩ : PoolState).msgs) :=
  C10_delete_message_after_power [⟨"a", true, none, none⟩] _
    (Reaches.step 0 (Reaches.step 0 (Reaches.step 0 (Reaches.step 0
      (Reaches.step 0 (Reaches.step 0 (Reaches.step 0
        (Reaches.refl (initState [⟨"a", true, none, none⟩]))
        rfl) rfl) rfl) rfl) rfl) rfl) rfl)

/-- C4 fails as stated: the very first step of a delete-branch worker
(line 136) reads the shared `delete` flag while the lock is free, so not
every read of the shared status flags happens under the lock. -/
theorem C4_counterexample :
    ¬ (∀ (confs : List ResourceConf) (s : PoolState) (i : Nat) (w : WorkerState)
        (t : PoolState), Reaches (initState confs) s → s.ws.get? i = some w →
        workerStep s i = some t → touchesFlags w.pc = true → s.holder = some i) := by
  intro hall
  have hh := hall [⟨"a", true, none, none⟩] (initState [⟨"a", true, none, none⟩]) 0
    ⟨"a", PC.dCheck⟩ ⟨false, false, none, [], [], [⟨"a", PC.dAcquire⟩]⟩
    (Reaches.refl _) rfl rfl rfl
  exact Option.noConfusion hh

/-- C4 (amended): every step that changes a shared status flag is taken by
the worker currently holding the lock (every write is inside the
`with lock` block), and every re-check read of lines 138 and 164 (the
steps taken from the `dRecheck` and `pRecheck` points) is likewise
performed while the worker holds the lock; only the fast-path reads of
lines 136 and 162 happen outside the lock (double-checked locking). -/
theorem C4_flag_writes_locked (confs : List ResourceConf) (s t : PoolState)
    (i : Nat) (hr : Reaches (initState confs) s)
    (hstep : workerStep s i = some t) :
    ((t.delete ≠ s.delete ∨ t.power_off ≠ s.power_off) → s.holder = some i) ∧
    (∀ w, s.ws.get? i = some w →
      (w.pc = PC.dRecheck ∨ w.pc = PC.pRecheck) → s.holder = some i) := by
  have hI := poolInv_reaches hr
  constructor
  · intro hch
    cases hw : s.ws.get? i with
    | none =>
      unfold workerStep at hstep
      rw [hw] at hstep
      exact Option.noConfusion hstep
    | some w =>
      have h2 : stepOfWorker s i w.name w.pc = some t := by
        rw [← hstep]
        unfold workerStep
        rw [hw]
      clear hstep
      cases hpc : w.pc <;> rw [hpc] at h2
      case dCheck =>
        injection h2 with h2
        subst h2
        rcases hch with hc | hc <;> exact absurd rfl hc
      case pCheck =>
        injection h2 with h2
        subst h2
        rcases hch with hc | hc <;> exact absurd rfl hc
      case pCmd =>
        injection h2 with h2
        subst h2
        rcases hch with hc | hc <;> exact absurd rfl hc
      case dAcquire =>
        simp only [stepOfWorker] at h2
        split at h2
        · injection h2 with h2
          subst h2
          rcases hch with hc | hc <;> exact absurd rfl hc
        · exact Option.noConfusion h2
      case pAcquire =>
        simp only [stepOfWorker] at h2
        split at h2
        · injection h2 with h2
          subst h2
          rcases hch with hc | hc <;> exact absurd rfl hc
        · exact Option.noConfusion h2
      case dDone => exact Option.noConfusion h2
      case pDone => exact Option.noConfusion h2
      case nDone => exact Option.noConfusion h2
      all_goals exact hI.mutex i w hw (by rw [hpc]; rfl)
  · intro w hw hpc
    rcases hpc with h | h <;> exact hI.mutex i w hw (by rw [h]; rfl)

/-- Witness for the amended C4: the worker about to execute line 139 holds
the lock while its step flips the `delete` flag, and the worker about to
perform the re-check read of line 138 holds the lock. -/
theorem C4_flag_writes_locked_witness :
    (⟨false, false, some 0, [], [], [⟨"a", PC.dSetDelete⟩]⟩ : PoolState).holder = some 0 ∧
    (⟨false, false, some 0, [], [], [⟨"a", PC.dRecheck⟩]⟩ : PoolState).holder = some 0 :=
  ⟨(C4_flag_writes_locked [⟨"a", true, none, none⟩]
      ⟨false, false, some 0, [], [], [⟨"a", PC.dSetDelete⟩]⟩
      ⟨true, false, some 0, [], [], [⟨"a", PC.dCheckPower⟩]⟩ 0
      (Reaches.step 0 (Reaches.step 0 (Reaches.step 0
        (Reaches.refl (initState [⟨"a", true, none, none⟩]))
        rfl) rfl) rfl)
      rfl).1 (Or.inl (by decide)),
   (C4_flag_writes_locked [⟨"a", true, none, none⟩]
      ⟨false, false, some 0, [], [], [⟨"a", PC.dRecheck⟩]⟩
      ⟨false, false, some 0, [], [], [⟨"a", PC.dSetDelete⟩]⟩ 0
      (Reaches.step 0 (Reaches.step 0
        (Reaches.refl (initState [⟨"a", true, none, none⟩]))
        rfl) rfl)
      rfl).2 ⟨"a", PC.dRecheck⟩ rfl (Or.inl rfl)⟩

/-- Every occupied worker slot corresponds to a resource with the same
name and branch. -/
theorem ws_get_conf {confs : List ResourceConf} {s : PoolState}
    (hI : PoolInv confs s) {i : Nat} {w : WorkerState}
    (hv : s.ws.get? i = some w) :
    ∃ r, confs.get? i = some r ∧ w.name = r.Name ∧ pcBranch w.pc = branchOf r := by
  have hi : i < s.ws.length := by
    rcases List.get?_eq_some.mp hv with ⟨hh, _⟩
    exact hh
  cases hg : confs.get? i with
  | none =>
    exfalso
    rw [List.get?_eq_none] at hg
    rw [hI.len] at hi
    omega
  | some r =>
    obtain ⟨hn, hb⟩ := hI.names i r w hg hv
    exact ⟨r, rfl, hn, hb⟩

/-- Every resource index is an occupied worker slot. -/
theorem ws_get_exists {confs : List ResourceConf} {s : PoolState}
    (hI : PoolInv confs s) {i : Nat} {r : ResourceConf}
    (hg : confs.get? i = some r) : ∃ w, s.ws.get? i = some w := by
  cases hv : s.ws.get? i with
  | none =>
    exfalso
    have hi : i < confs.length := by
      rcases List.get?_eq_some.mp hg with ⟨hh, _⟩
      exact hh
    rw [List.get?_eq_none] at hv
    rw [hI.len] at hv
    omega
  | some w => exact ⟨w, rfl⟩

/-- Collecting a list of always-some results recovers the mapped list. -/
theorem filterMap_id_map_some {α β : Type} (f : α → β) (l : List α) :
    List.filterMap id (l.map (fun a => some (f a))) = l.map f := by
  induction l with
  | nil => rfl
  | cons a t ih => simp [ih]

/-- C6: on a teardown over at least one VM-backed resource where every
resource is deletion-eligible (`auto_delete` absent or "true"), any
complete run writes exactly one deleted-class message and issues exactly
one bulk remove call carrying all resource names. -/
theorem C6_all_delete_one_message_bulk (confs : List ResourceConf) (s : PoolState)
    (hne : confs ≠ [])
    (hvm : ∀ r ∈ confs, r.VmDetailsPresent = true)
    (hdel : ∀ r ∈ confs, deleteFlag r = true)
    (hr : Reaches (initState confs) s) (hdone : allDone s) :
    countDel s.msgs = 1 ∧
    bulkRemoveCalls s = [confs.map (fun r => r.Name)] := by
  have hI0 := poolInv_reaches hr
  rw [List.filter_eq_self.mpr hvm] at hI0
  have hworkers : ∀ i w, s.ws.get? i = some w → w.pc = PC.dDone ∧ w.name =
      ((confs.get? i).map (fun r => r.Name)).getD w.name := by
    intro i w hv
    obtain ⟨r, hgr, hn, hb⟩ := ws_get_conf hI0 hv
    have hbr : branchOf r = Branch.del := by
      unfold branchOf
      rw [if_pos (hdel r (List.get?_mem hgr))]
    rw [hbr] at hb
    have hterm := hdone w (List.get?_mem hv)
    constructor
    · rcases hterm with h1 | h1 | h1
      · exact h1
      · rw [h1] at hb
        exact Branch.noConfusion hb
      · rw [h1] at hb
        exact Branch.noConfusion hb
    · rw [hgr]
      exact hn
  obtain ⟨r0, hg0⟩ : ∃ r0, confs.get? 0 = some r0 := by
    cases hg : confs.get? 0 with
    | none =>
      exfalso
      rw [List.get?_eq_none] at hg
      cases confs with
      | nil => exact hne rfl
      | cons a t => simp at hg
    | some r => exact ⟨r, rfl⟩
  obtain ⟨w0, hw0⟩ := ws_get_exists hI0 hg0
  have hw0d : w0.pc = PC.dDone := (hworkers 0 w0 hw0).1
  have hdel1 : s.delete = true := hI0.delSet 0 w0 hw0 (by rw [hw0d]; rfl)
  have hpend : pcCount delPending s = 0 := by
    simp only [pcCount]
    rw [List.countP_eq_zero]
    intro w hwm
    obtain ⟨n, hn⟩ := List.mem_iff_get?.mp hwm
    have hpcd := (hworkers n w hn).1
    simp [hpcd, delPending]
  have ht := hI0.tokDel
  rw [hdel1, hpend] at ht
  simp only [Bool.toNat_true] at ht
  have hcnt : countDel s.msgs = 1 := by omega
  refine ⟨hcnt, ?_⟩
  have hres : finalResults s = confs.map (fun r => some r.Name) := by
    apply List.ext_get?
    intro n
    simp only [finalResults, List.get?_map]
    cases hg : confs.get? n with
    | none =>
      have h1 : s.ws.get? n = none := by
        rw [List.get?_eq_none] at hg ⊢
        rw [hI0.len]
        exact hg
      rw [h1]
      rfl
    | some r =>
      obtain ⟨w, hwn⟩ := ws_get_exists hI0 hg
      obtain ⟨hpcd, hname⟩ := hworkers n w hwn
      rw [hg] at hname
      simp at hname
      rw [hwn]
      simp [hpcd, hname]
  have hrtd : resourceToDelete s = confs.map (fun r => r.Name) := by
    unfold resourceToDelete
    rw [hres]
    exact filterMap_id_map_some (fun r => r.Name) confs
  unfold bulkRemoveCalls
  rw [hrtd]
  rw [if_neg (fun hmm => hne (List.map_eq_nil.mp hmm))]

/-- Witness for C6 on a complete eight-step run of one delete-eligible
resource. -/
theorem C6_all_delete_one_message_bulk_witness :
    countDel (⟨true, true, none, [OutMsg.poweredOffAndDeleted], [],
      [⟨"a", PC.dDone⟩]⟩ : PoolState).msgs = 1 ∧
    bulkRemoveCalls (⟨true, true, none, [OutMsg.poweredOffAndDeleted], [],
      [⟨"a", PC.dDone⟩]⟩ : PoolState) = [["a"]] :=
  C6_all_delete_one_message_bulk [⟨"a", true, none, none⟩] _
    (by decide) (by decide) (by decide)
    (Reaches.step 0 (Reaches.step 0 (Reaches.step 0 (Reaches.step 0
      (Reaches.step 0 (Reaches.step 0 (Reaches.step 0 (Reaches.step 0
        (Reaches.refl (initState [⟨"a", true, none, none⟩]))
        rfl) rfl) rfl) rfl) rfl) rfl) rfl) rfl)
    (by unfold allDone; decide)

/-- C7: on a teardown over at least one VM-backed resource where every
resource has `auto_delete` false and `auto_power_off` absent or "true",
any complete run writes exactly one `Apps are powering off...` message,
issues exactly one power-off command per resource carrying that resource
name, and never invokes the bulk remove call. -/
theorem C7_all_power_off (confs : List ResourceConf) (s : PoolState)
    (hne : confs ≠ [])
    (hvm : ∀ r ∈ confs, r.VmDetailsPresent = true)
    (hdel : ∀ r ∈ confs, deleteFlag r = false)
    (hpow : ∀ r ∈ confs, powerFlag r = true)
    (hr : Reaches (initState confs) s) (hdone : allDone s) :
    s.msgs.countP (fun m => m == OutMsg.poweringOff) = 1 ∧
    s.cmds.length = confs.length ∧
    (∀ j r, confs.get? j = some r →
      s.cmds.filter (fun c => c.1 == j) = [(j, r.Name)]) ∧
    bulkRemoveCalls s = [] := by
  have hI0 := poolInv_reaches hr
  rw [List.filter_eq_self.mpr hvm] at hI0
  have hbranch : ∀ r ∈ confs, branchOf r = Branch.pow := by
    intro r hm
    unfold branchOf
    rw [if_neg (fun hh => by rw [hdel r hm] at hh; exact Bool.noConfusion hh)]
    rw [if_pos (hpow r hm)]
  have hworkers : ∀ i w, s.ws.get? i = some w → w.pc = PC.pDone ∧ w.name =
      ((confs.get? i).map (fun r => r.Name)).getD w.name := by
    intro i w hv
    obtain ⟨r, hgr, hn, hb⟩ := ws_get_conf hI0 hv
    rw [hbranch r (List.get?_mem hgr)] at hb
    have hterm := hdone w (List.get?_mem hv)
    constructor
    · rcases hterm with h1 | h1 | h1
      · rw [h1] at hb
        exact Branch.noConfusion hb
      · exact h1
      · rw [h1] at hb
        exact Branch.noConfusion hb
    · rw [hgr]
      exact hn
  obtain ⟨r0, hg0⟩ : ∃ r0, confs.get? 0 = some r0 := by
    cases hg : confs.get? 0 with
    | none =>
      exfalso
      rw [List.get?_eq_none] at hg
      cases confs with
      | nil => exact hne rfl
      | cons a t => simp at hg
    | some r => exact ⟨r, rfl⟩
  obtain ⟨w0, hw0⟩ := ws_get_exists hI0 hg0
  have hw0d : w0.pc = PC.pDone := (hworkers 0 w0 hw0).1
  have hpow1 : s.power_off = true := hI0.powSet 0 w0 hw0 (by rw [hw0d]; rfl)
  have hdel0 : s.delete = false := by
    cases hd : s.delete
    · rfl
    · exfalso
      obtain ⟨j, v, hv, hb2⟩ := hI0.delBranch hd
      obtain ⟨r, hgr, hn, hb⟩ := ws_get_conf hI0 hv
      rw [hb2] at hb
      rw [hbranch r (List.get?_mem hgr)] at hb
      exact Branch.noConfusion hb
  have hpendP : pcCount powPending s = 0 := by
    simp only [pcCount]
    rw [List.countP_eq_zero]
    intro w hwm
    obtain ⟨n, hn⟩ := List.mem_iff_get?.mp hwm
    have hpcd := (hworkers n w hn).1
    simp [hpcd, powPending]
  have hpendD : pcCount delPending s = 0 := by
    simp only [pcCount]
    rw [List.countP_eq_zero]
    intro w hwm
    obtain ⟨n, hn⟩ := List.mem_iff_get?.mp hwm
    have hpcd := (hworkers n w hn).1
    simp [hpcd, delPending]
  have htp := hI0.tokPow
  rw [hpow1, hpendP] at htp
  simp only [Bool.toNat_true] at htp
  have htd := hI0.tokDel
  rw [hdel0, hpendD] at htd
  simp only [Bool.toNat_false] at htd
  have hsplit := countPow_split s.msgs
  have hle := countP_pOAD_le s.msgs
  refine ⟨by omega, ?_, ?_, ?_⟩
  · rw [hI0.cmdLen, ← hI0.len]
    simp only [pcCount]
    rw [List.countP_eq_length]
    intro w hwm
    obtain ⟨n, hn⟩ := List.mem_iff_get?.mp hwm
    have hpcd := (hworkers n w hn).1
    simp [hpcd]
  · intro j r hgr
    obtain ⟨w, hwj⟩ := ws_get_exists hI0 hgr
    obtain ⟨hpcd, hname⟩ := hworkers j w hwj
    rw [hgr] at hname
    simp at hname
    have hcount := hI0.cmdCount j w hwj
    rw [hpcd, if_pos rfl] at hcount
    rw [List.countP_eq_length_filter] at hcount
    obtain ⟨x, hx⟩ := List.length_eq_one.mp hcount
    have hxmem : x ∈ s.cmds.filter (fun c => c.1 == j) := by
      rw [hx]
      exact List.mem_singleton.mpr rfl
    have hxm := List.mem_filter.mp hxmem
    obtain ⟨v, hvx, hvn, hvp⟩ := hI0.cmdShape x hxm.1
    have hx1 : x.1 = j := by
      have := hxm.2
      simpa using this
    rw [hx1, hwj] at hvx
    injection hvx with hvx
    subst hvx
    have hx2 : x.2 = r.Name := by
      rw [hvn, hname]
    have hxeq : x = (j, r.Name) := by
      rw [← hx1, ← hx2]
    rw [hx, hxeq]
  · have hrtd : resourceToDelete s = [] := by
      unfold resourceToDelete finalResults
      rw [List.filterMap_eq_nil]
      intro x hxm
      obtain ⟨w, hwm2, hwe⟩ := List.mem_map.mp hxm
      obtain ⟨n, hn⟩ := List.mem_iff_get?.mp hwm2
      have hpcd := (hworkers n w hn).1
      rw [← hwe]
      simp [hpcd]
    unfold bulkRemoveCalls
    rw [hrtd]
    rfl

/-- Witness for C7 on a complete seven-step run of one power-off-eligible
resource. -/
theorem C7_all_power_off_witness :
    ((⟨false, true, none, [OutMsg.poweringOff], [(0, "b")],
      [⟨"b", PC.pDone⟩]⟩ : PoolState).msgs.countP
        (fun m => m == OutMsg.poweringOff) = 1) ∧
    (⟨false, true, none, [OutMsg.poweringOff], [(0, "b")],
      [⟨"b", PC.pDone⟩]⟩ : PoolState).cmds.length = 1 ∧
    (∀ j r, [(⟨"b", true, some ⟨"false"⟩, none⟩ : ResourceConf)].get? j = some r →
      (⟨false, true, none, [OutMsg.poweringOff], [(0, "b")],
        [⟨"b", PC.pDone⟩]⟩ : PoolState).cmds.filter (fun c => c.1 == j)
        = [(j, r.Name)]) ∧
    bulkRemoveCalls (⟨false, true, none, [OutMsg.poweringOff], [(0, "b")],
      [⟨"b", PC.pDone⟩]⟩ : PoolState) = [] :=
  C7_all_power_off [⟨"b", true, some ⟨"false"⟩, none⟩] _
    (by decide) (by decide) (by decide) (by decide)
    (Reaches.step 0 (Reaches.step 0 (Reaches.step 0 (Reaches.step 0
      (Reaches.step 0 (Reaches.step 0 (Reaches.step 0
        (Reaches.refl (initState [⟨"b", true, some ⟨"false"⟩, none⟩]))
        rfl) rfl) rfl) rfl) rfl) rfl) rfl)
    (by unfold allDone; decide)
